import Mathlib

/-!
Shallow embedding of the ch-backup backup-metadata store, schema/data restore
orchestration and schema comparator, translated from
`ch_backup/backup/metadata.py`, `ch_backup/logic/table.py` and
`ch_backup/util.py`, together with theorems settling the frozen claims
about them.

Python `dict`s are modelled as association lists (Python dicts preserve
insertion order; `d[k] = v` on a fresh key appends at the end), Python `int`
as `Int`, raised exceptions of fallible operations as `Option`/`Except`.
-/

namespace ChBackup

/-! ### Association-list model of Python dicts -/

/-- `m[k]` / `m.get(k)`: first binding of `k` (keys are unique in a dict). -/
def aget {α : Type} (m : List (String × α)) (k : String) : Option α :=
  match m with
  | [] => none
  | (k', v) :: rest => if k' = k then some v else aget rest k

/-- `m[k] = v` on a key known to be fresh: appends, as a Python dict does. -/
def aput {α : Type} (m : List (String × α)) (k : String) (v : α) :
    List (String × α) :=
  m ++ [(k, v)]

/-- `del m[k]`: drop the binding of `k`. -/
def aerase {α : Type} (m : List (String × α)) (k : String) :
    List (String × α) :=
  match m with
  | [] => []
  | (k', v) :: rest => if k' = k then rest else (k', v) :: aerase rest k

/-- `m[k] = v` on a key that may be present: replace in place, else append. -/
def aupd {α : Type} (m : List (String × α)) (k : String) (v : α) :
    List (String × α) :=
  match m with
  | [] => [(k, v)]
  | (k', v') :: rest =>
      if k' = k then (k', v) :: rest else (k', v') :: aupd rest k v

/-! ### Backup states (`BackupState` in metadata.py) -/

/-- The five backup lifecycle states. -/
inductive BackupState where
  | created
  | creating
  | deleting
  | partially_deleted
  | failed
deriving Repr, DecidableEq

/-- `BackupState.value`: the serialized state string. -/
def BackupState.value : BackupState → String
  | .created => "created"
  | .creating => "creating"
  | .deleting => "deleting"
  | .partially_deleted => "partially_deleted"
  | .failed => "failed"

/-- `BackupState(s)`: enum lookup by value; `none` models the `ValueError`
raised on a string outside the enumeration. -/
def BackupState.parse (s : String) : Option BackupState :=
  if s = "created" then some .created
  else if s = "creating" then some .creating
  else if s = "deleting" then some .deleting
  else if s = "partially_deleted" then some .partially_deleted
  else if s = "failed" then some .failed
  else none

/-! ### Part / table raw metadata (the nested dict tree) -/

/-- The raw dict stored per part under `parts` (written by
`TableMetadata.add_part`): keys checksum, bytes, files, link, tarball,
disk_name.  A `none` in `link`/`disk_name` stands for JSON null or an
absent key; an absent `tarball` key reads back as `false` (the
`raw_metadata.get('tarball', False)` default), so it is a plain `Bool`. -/
structure PartRaw where
  checksum : String
  bytes : Int
  files : List String
  link : Option String
  tarball : Bool
  disk_name : Option String
deriving Repr, DecidableEq

/-- `PartMetadata`: the in-memory part object (constructor fields). -/
structure PartMetadata where
  database : String
  table : String
  name : String
  checksum : String
  size : Int
  files : List String
  tarball : Bool
  link : Option String
  disk_name : Option String
deriving Repr, DecidableEq

/-- The dict `TableMetadata.add_part` stores for a part. -/
def PartMetadata.toRaw (p : PartMetadata) : PartRaw :=
  { checksum := p.checksum, bytes := p.size, files := p.files,
    link := p.link, tarball := p.tarball, disk_name := p.disk_name }

/-- `PartMetadata.load`: rebuild the part object from its raw dict. -/
def PartRaw.toPart (raw : PartRaw) (database table name : String) :
    PartMetadata :=
  { database := database, table := table, name := name,
    checksum := raw.checksum, size := raw.bytes, files := raw.files,
    tarball := raw.tarball, link := raw.link, disk_name := raw.disk_name }

/-- The raw dict stored per table: engine, uuid and the parts dict. -/
structure TableRaw where
  engine : String
  uuid : Option String
  parts : List (String × PartRaw)
deriving Repr, DecidableEq

/-- The raw dict stored per database: its tables dict. -/
structure DbRaw where
  tables : List (String × TableRaw)
deriving Repr, DecidableEq

/-- `TableMetadata`: the in-memory table object wrapping its raw dict. -/
structure TableMetadata where
  database : String
  name : String
  engine : String
  uuid : Option String
  parts : List (String × PartRaw)
deriving Repr, DecidableEq

/-- `TableMetadata.get_parts` (without exclusions, as the metadata store
calls it): every recorded part as a `PartMetadata`. -/
def TableMetadata.get_parts (t : TableMetadata) : List PartMetadata :=
  t.parts.map fun pr => pr.2.toPart t.database t.name pr.1

/-- `TableMetadata.add_part`: asserts the part belongs to this table and is
new, then stores its raw dict; `none` models a failed assertion. -/
def TableMetadata.add_part (t : TableMetadata) (p : PartMetadata) :
    Option TableMetadata :=
  if p.database = t.database ∧ p.table = t.name ∧ (aget t.parts p.name) = none
  then some { t with parts := aput t.parts p.name p.toRaw }
  else none

/-! ### Timestamps

`datetime` values as the program manipulates them: naive or carrying a fixed
utcoffset.  The offset is kept in minutes (`strftime('%z')` prints hours and
minutes); `tz = none` is a naive datetime. -/

/-- A Python `datetime` restricted to the fields the program's time formats
serialize. -/
structure PyDateTime where
  year : Nat
  month : Nat
  day : Nat
  hour : Nat
  minute : Nat
  second : Nat
  tz : Option Int
deriving Repr, DecidableEq

/-! ### BackupMetadata -/

/-- `BackupMetadata`: name, path, versions, host, lifecycle state,
timestamps, counters, access-control list, per-disk revision map and the
database→table→part tree (held as the raw dict tree, exactly as the Python
object holds `_databases`). -/
structure BackupMeta where
  name : String
  path : String
  version : String
  ch_version : String
  hostname : String
  time_format : String
  labels : Option (List (String × String))
  state : BackupState
  start_time : Option PyDateTime
  end_time : Option PyDateTime
  databases : List (String × DbRaw)
  access_control : List String
  size : Int
  real_size : Int
  schema_only : Bool
  s3_revisions : List (String × Int)
deriving Repr, DecidableEq

/-- `BackupMetadata.__init__`: fresh metadata in state `creating` with empty
tree and zero counters.  `start` stands for `now()`. -/
def BackupMeta.init (name path version ch_version time_format hostname :
    String) (labels : Option (List (String × String))) (schema_only : Bool)
    (start : PyDateTime) : BackupMeta :=
  { name := name, path := path, version := version, ch_version := ch_version,
    hostname := hostname, time_format := time_format, labels := labels,
    state := .creating, start_time := some start, end_time := none,
    databases := [], access_control := [], size := 0, real_size := 0,
    schema_only := schema_only, s3_revisions := [] }

/-- `BackupMetadata.add_database`: register an empty table map; `none`
models the failed `assert db_name not in self._databases`. -/
def BackupMeta.add_database (b : BackupMeta) (db_name : String) :
    Option BackupMeta :=
  if (aget b.databases db_name) = none then
    some { b with databases := aput b.databases db_name { tables := [] } }
  else none

/-- Sum of `f` over a dict's values. -/
def mapSum {α : Type} (f : α → Int) (m : List (String × α)) : Int :=
  (m.map fun p => f p.2).sum

/-- The contribution of a link-free part to `real_size` (a linked part
contributes nothing). -/
def PartRaw.realBytes (pr : PartRaw) : Int :=
  if pr.link = none then pr.bytes else 0

/-- Sum of `part.size` over the parts the table-raw dict holds. -/
def TableRaw.partsSize (t : TableRaw) : Int :=
  mapSum PartRaw.bytes t.parts

/-- Sum of `part.size` over the table's parts that carry no link. -/
def TableRaw.partsRealSize (t : TableRaw) : Int :=
  mapSum PartRaw.realBytes t.parts

/-- Σ `f` over every part of the whole database→table→part tree. -/
def treeSum (f : PartRaw → Int) (dbs : List (String × DbRaw)) : Int :=
  mapSum (fun d => mapSum (fun t => mapSum f t.parts) d.tables) dbs

/-- Σ part.size over every part of the tree. -/
def BackupMeta.sumSize (b : BackupMeta) : Int :=
  treeSum PartRaw.bytes b.databases

/-- Σ part.size over the link-free parts of the tree. -/
def BackupMeta.sumRealSize (b : BackupMeta) : Int :=
  treeSum PartRaw.realBytes b.databases

/-- `BackupMetadata.add_table`: attach the table's raw dict under its
database (KeyError on a missing database and the `assert table.name not in
tables` both model as `none`), then fold the table's parts into
size/real_size, link-bearing parts excluded from real_size. -/
def BackupMeta.add_table (b : BackupMeta) (t : TableMetadata) :
    Option BackupMeta := do
  let db ← aget b.databases t.database
  if (aget db.tables t.name) = none then
    let raw : TableRaw := { engine := t.engine, uuid := t.uuid, parts := t.parts }
    some { b with
      databases := aupd b.databases t.database
        { tables := aput db.tables t.name raw },
      size := b.size + raw.partsSize,
      real_size := b.real_size + raw.partsRealSize }
  else none

/-- `BackupMetadata.get_table`: the stored table rebuilt as an object
(`TableMetadata.load`); `none` models KeyError. -/
def BackupMeta.get_table (b : BackupMeta) (db_name table_name : String) :
    Option TableMetadata := do
  let db ← aget b.databases db_name
  let t ← aget db.tables table_name
  some
    { database := db_name, name := table_name, engine := t.engine,
      uuid := t.uuid, parts := t.parts }

/-- `BackupMetadata.find_part`: the stored part, or `none` when any level of
the lookup misses. -/
def BackupMeta.find_part (b : BackupMeta) (db_name table_name part_name :
    String) : Option PartMetadata := do
  let db ← aget b.databases db_name
  let t ← aget db.tables table_name
  let pr ← aget t.parts part_name
  some (pr.toPart db_name table_name part_name)

/-- `BackupMetadata.add_part`: `get_table(...).add_part(part)` mutates the
raw dict the backup shares with the returned table object, then the
counters are bumped by the given part's size. -/
def BackupMeta.add_part (b : BackupMeta) (p : PartMetadata) :
    Option BackupMeta := do
  let db ← aget b.databases p.database
  let traw ← aget db.tables p.table
  let tobj : TableMetadata :=
    { database := p.database, name := p.table,
      engine := traw.engine, uuid := traw.uuid, parts := traw.parts }
  let tobj' ← tobj.add_part p
  some { b with
    databases := aupd b.databases p.database
      { tables := aupd db.tables p.table { traw with parts := tobj'.parts } },
    size := b.size + p.size,
    real_size := b.real_size + (if p.link = none then p.size else 0) }

/-- The per-part body of `remove_parts`: `del _parts[part.name]` (KeyError
on an absent name models as `none`), then the counters go down by the
*given* part's size. -/
def removePartsLoop (parts : List (String × PartRaw)) (size real_size : Int) :
    List PartMetadata → Option (List (String × PartRaw) × Int × Int)
  | [] => some (parts, size, real_size)
  | p :: rest =>
      if (aget parts p.name).isSome then
        removePartsLoop (aerase parts p.name) (size - p.size)
          (real_size - (if p.link = none then p.size else 0)) rest
      else none

/-- `BackupMetadata.remove_parts`: drop the listed parts from the table's
dict, decrementing the counters the same way `add_part` incremented them. -/
def BackupMeta.remove_parts (b : BackupMeta) (t : TableMetadata)
    (parts : List PartMetadata) : Option BackupMeta := do
  let db ← aget b.databases t.database
  let traw ← aget db.tables t.name
  let (parts', size', real_size') ← removePartsLoop traw.parts b.size
    b.real_size parts
  some { b with
    databases := aupd b.databases t.database
      { tables := aupd db.tables t.name { traw with parts := parts' } },
    size := size', real_size := real_size' }

/-! ### Mutator-operation sequences (claim C2) -/

/-- One call to a metadata-store mutator, with its arguments. -/
inductive MetaOp where
  | addDatabase (name : String)
  | addTable (t : TableMetadata)
  | addPart (p : PartMetadata)
  | removeParts (t : TableMetadata) (parts : List PartMetadata)

/-- Apply one mutator call; `none` models a raised KeyError/AssertionError. -/
def applyOp (b : BackupMeta) : MetaOp → Option BackupMeta
  | .addDatabase n => b.add_database n
  | .addTable t => b.add_table t
  | .addPart p => b.add_part p
  | .removeParts t ps => b.remove_parts t ps

/-- A `remove_parts` argument list is consistent when each listed part names
a stored entry whose recorded size and link equal the argument's (checked
against the dict as the deleting loop sees it).  Parts read back from the
metadata itself (`get_parts`, `find_part`) always satisfy this. -/
def consistentWith (parts : List (String × PartRaw)) :
    List PartMetadata → Bool
  | [] => true
  | p :: rest =>
      match aget parts p.name with
      | some v =>
          v.bytes = p.size && v.link = p.link &&
            consistentWith (aerase parts p.name) rest
      | none => false

/-- Consistency of one mutator call's arguments with the current state
(only `remove_parts` constrains its caller). -/
def consistentOp (b : BackupMeta) : MetaOp → Bool
  | .removeParts t ps =>
      match aget b.databases t.database with
      | none => true
      | some db =>
          match aget db.tables t.name with
          | none => true
          | some traw => consistentWith traw.parts ps
  | _ => true

/-- Run a sequence of mutator calls (stopping at the first failure). -/
def runOps (b : BackupMeta) : List MetaOp → Option BackupMeta
  | [] => some b
  | op :: rest => (applyOp b op).bind (runOps · rest)

/-- Run a sequence of mutator calls, also requiring each `remove_parts`
argument list to be consistent with the stored entries it names. -/
def runChecked (b : BackupMeta) : List MetaOp → Option BackupMeta
  | [] => some b
  | op :: rest =>
      if consistentOp b op then (applyOp b op).bind (runChecked · rest)
      else none

/-- The metadata-store counter invariant of the spec: `size` is the sum of
part sizes over the whole tree, `real_size` the same sum over link-free
parts. -/
def BackupInv (b : BackupMeta) : Prop :=
  b.size = b.sumSize ∧ b.real_size = b.sumRealSize

/-! ### Sums over association lists -/

theorem mapSum_aput {α : Type} (f : α → Int) (m : List (String × α))
    (k : String) (v : α) : mapSum f (aput m k v) = mapSum f m + f v := by
  simp [mapSum, aput]

theorem mapSum_aupd {α : Type} (f : α → Int) (m : List (String × α))
    (k : String) (v v' : α) (h : aget m k = some v) :
    mapSum f (aupd m k v') = mapSum f m - f v + f v' := by
  induction m with
  | nil => simp [aget] at h
  | cons hd tl ih =>
      by_cases hk : hd.1 = k
      · simp only [aget, hk, if_pos rfl] at h
        cases h
        simp [mapSum, aupd, hk]
        ring
      · simp only [aget, hk, if_neg hk] at h
        simp only [mapSum, aupd, if_neg hk, List.map_cons, List.sum_cons]
        have := ih h
        simp only [mapSum] at this
        rw [this]
        ring

theorem mapSum_aerase {α : Type} (f : α → Int) (m : List (String × α))
    (k : String) (v : α) (h : aget m k = some v) :
    mapSum f (aerase m k) = mapSum f m - f v := by
  induction m with
  | nil => simp [aget] at h
  | cons hd tl ih =>
      by_cases hk : hd.1 = k
      · simp only [aget, hk, if_pos rfl] at h
        cases h
        simp [mapSum, aerase, hk]
      · simp only [aget, hk, if_neg hk] at h
        simp only [mapSum, aerase, if_neg hk, List.map_cons, List.sum_cons]
        have := ih h
        simp only [mapSum] at this
        rw [this]
        ring

/-- Registering a fresh table dict under an existing database adds exactly
the new table's part sum to the tree sum. -/
theorem treeSum_addTable (f : PartRaw → Int) (dbs : List (String × DbRaw))
    (dbn tbn : String) (db : DbRaw) (raw : TableRaw)
    (hdb : aget dbs dbn = some db) :
    treeSum f (aupd dbs dbn { tables := aput db.tables tbn raw }) =
      treeSum f dbs + mapSum f raw.parts := by
  unfold treeSum
  rw [mapSum_aupd _ _ _ db _ hdb]
  simp only
  rw [mapSum_aput]
  ring

/-- Replacing one table's parts dict shifts the tree sum by the difference
of the part sums. -/
theorem treeSum_updParts (f : PartRaw → Int) (dbs : List (String × DbRaw))
    (dbn tbn : String) (db : DbRaw) (traw : TableRaw) (e : String)
    (u : Option String) (newparts : List (String × PartRaw))
    (hdb : aget dbs dbn = some db) (htr : aget db.tables tbn = some traw) :
    treeSum f (aupd dbs dbn
        { tables := aupd db.tables tbn
            { engine := e, uuid := u, parts := newparts } }) =
      treeSum f dbs - mapSum f traw.parts + mapSum f newparts := by
  unfold treeSum
  rw [mapSum_aupd _ _ _ db _ hdb]
  simp only
  rw [mapSum_aupd _ _ _ traw _ htr]
  simp only
  ring

/-! ### Invariant preservation, operation by operation -/

theorem add_database_inv (b b' : BackupMeta) (n : String)
    (hInv : BackupInv b) (h : b.add_database n = some b') : BackupInv b' := by
  unfold BackupMeta.add_database at h
  split at h
  · cases h
    obtain ⟨h1, h2⟩ := hInv
    constructor
    · show b.size = treeSum PartRaw.bytes (aput b.databases n { tables := [] })
      unfold treeSum
      rw [mapSum_aput, h1]
      simp [mapSum, BackupMeta.sumSize, treeSum]
    · show b.real_size =
        treeSum PartRaw.realBytes (aput b.databases n { tables := [] })
      unfold treeSum
      rw [mapSum_aput, h2]
      simp [mapSum, BackupMeta.sumRealSize, treeSum]
  · exact absurd h (by simp)

theorem add_table_inv (b b' : BackupMeta) (t : TableMetadata)
    (hInv : BackupInv b) (h : b.add_table t = some b') : BackupInv b' := by
  unfold BackupMeta.add_table at h
  cases hdb : aget b.databases t.database with
  | none => rw [hdb] at h; exact absurd h (by simp)
  | some db =>
      rw [hdb] at h
      simp only [Option.bind_eq_bind, Option.some_bind] at h
      split at h
      · cases h
        obtain ⟨h1, h2⟩ := hInv
        constructor
        · show b.size + _ = treeSum PartRaw.bytes (aupd b.databases t.database _)
          rw [treeSum_addTable _ _ _ _ _ _ hdb, h1]
          rfl
        · show b.real_size + _ =
            treeSum PartRaw.realBytes (aupd b.databases t.database _)
          rw [treeSum_addTable _ _ _ _ _ _ hdb, h2]
          rfl
      · exact absurd h (by simp)

theorem add_part_inv (b b' : BackupMeta) (p : PartMetadata)
    (hInv : BackupInv b) (h : b.add_part p = some b') : BackupInv b' := by
  unfold BackupMeta.add_part at h
  cases hdb : aget b.databases p.database with
  | none => rw [hdb] at h; exact absurd h (by simp)
  | some db =>
      rw [hdb] at h
      simp only [Option.bind_eq_bind, Option.some_bind] at h
      cases htr : aget db.tables p.table with
      | none => rw [htr] at h; exact absurd h (by simp)
      | some traw =>
          rw [htr] at h
          simp only [Option.some_bind] at h
          unfold TableMetadata.add_part at h
          split at h
          · simp only [Option.some_bind] at h
            cases h
            obtain ⟨h1, h2⟩ := hInv
            constructor
            · show b.size + p.size =
                treeSum PartRaw.bytes (aupd b.databases p.database _)
              rw [treeSum_updParts _ _ _ _ _ _ _ _ _ hdb htr, mapSum_aput, h1]
              show _ = _ - _ + (_ + p.toRaw.bytes)
              have : p.toRaw.bytes = p.size := rfl
              rw [this]
              unfold BackupMeta.sumSize
              ring
            · show b.real_size + _ =
                treeSum PartRaw.realBytes (aupd b.databases p.database _)
              rw [treeSum_updParts _ _ _ _ _ _ _ _ _ hdb htr, mapSum_aput, h2]
              show _ = _ - _ + (_ + p.toRaw.realBytes)
              have : p.toRaw.realBytes = if p.link = none then p.size else 0 :=
                rfl
              rw [this]
              unfold BackupMeta.sumRealSize
              ring
          · exact absurd h (by simp)

/-- The deleting loop of `remove_parts`, run on a consistent argument list,
keeps the difference between each counter and the matching sum over the
dict unchanged. -/
theorem removePartsLoop_spec :
    ∀ (ps : List PartMetadata) (parts : List (String × PartRaw))
      (size rsz : Int) out,
      consistentWith parts ps = true →
      removePartsLoop parts size rsz ps = some out →
      out.2.1 - mapSum PartRaw.bytes out.1 =
        size - mapSum PartRaw.bytes parts ∧
      out.2.2 - mapSum PartRaw.realBytes out.1 =
        rsz - mapSum PartRaw.realBytes parts := by
  intro ps
  induction ps with
  | nil =>
      intro parts size rsz out _ h
      cases h
      exact ⟨by ring, by ring⟩
  | cons p rest ih =>
      intro parts size rsz out hc h
      unfold consistentWith at hc
      unfold removePartsLoop at h
      cases hv : aget parts p.name with
      | none => rw [hv] at hc; exact absurd hc (by simp)
      | some v =>
          rw [hv] at hc
          simp only [Bool.and_eq_true, decide_eq_true_eq] at hc
          obtain ⟨⟨hvb, hvl⟩, hcrest⟩ := hc
          rw [hv] at h
          simp only [Option.isSome_some, if_pos] at h
          obtain ⟨e1, e2⟩ := ih (aerase parts p.name) (size - p.size)
            (rsz - (if p.link = none then p.size else 0)) out hcrest h
          constructor
          · rw [e1, mapSum_aerase _ _ _ v hv, hvb]
            ring
          · rw [e2, mapSum_aerase _ _ _ v hv]
            have : v.realBytes = if p.link = none then p.size else 0 := by
              unfold PartRaw.realBytes
              rw [hvl, hvb]
            rw [this]
            ring

theorem remove_parts_inv (b b' : BackupMeta) (t : TableMetadata)
    (ps : List PartMetadata) (hInv : BackupInv b)
    (hc : consistentOp b (.removeParts t ps) = true)
    (h : b.remove_parts t ps = some b') : BackupInv b' := by
  unfold BackupMeta.remove_parts at h
  cases hdb : aget b.databases t.database with
  | none => rw [hdb] at h; exact absurd h (by simp)
  | some db =>
      rw [hdb] at h
      simp only [Option.bind_eq_bind, Option.some_bind] at h
      cases htr : aget db.tables t.name with
      | none => rw [htr] at h; exact absurd h (by simp)
      | some traw =>
          rw [htr] at h
          simp only [Option.some_bind] at h
          simp only [consistentOp] at hc
          rw [hdb] at hc
          dsimp only at hc
          rw [htr] at hc
          dsimp only at hc
          cases hloop : removePartsLoop traw.parts b.size b.real_size ps with
          | none => rw [hloop] at h; exact absurd h (by simp)
          | some out =>
              rw [hloop] at h
              simp only [Option.some_bind] at h
              cases h
              obtain ⟨e1, e2⟩ := removePartsLoop_spec ps traw.parts b.size
                b.real_size out hc hloop
              obtain ⟨h1, h2⟩ := hInv
              constructor
              · show out.2.1 =
                  treeSum PartRaw.bytes (aupd b.databases t.database _)
                rw [treeSum_updParts _ _ _ _ _ _ _ _ _ hdb htr]
                have hs : b.size = treeSum PartRaw.bytes b.databases := h1
                omega
              · show out.2.2 =
                  treeSum PartRaw.realBytes (aupd b.databases t.database _)
                rw [treeSum_updParts _ _ _ _ _ _ _ _ _ hdb htr]
                have hs : b.real_size = treeSum PartRaw.realBytes b.databases :=
                  h2
                omega

/-- One consistent mutator call preserves the counter invariant. -/
theorem applyOp_inv (b b' : BackupMeta) (op : MetaOp) (hInv : BackupInv b)
    (hc : consistentOp b op = true) (h : applyOp b op = some b') :
    BackupInv b' := by
  cases op with
  | addDatabase n => exact add_database_inv b b' n hInv h
  | addTable t => exact add_table_inv b b' t hInv h
  | addPart p => exact add_part_inv b b' p hInv h
  | removeParts t ps => exact remove_parts_inv b b' t ps hInv hc h

/-- Any consistent run of mutator calls preserves the counter invariant. -/
theorem runChecked_inv :
    ∀ (ops : List MetaOp) (b b' : BackupMeta), BackupInv b →
      runChecked b ops = some b' → BackupInv b' := by
  intro ops
  induction ops with
  | nil =>
      intro b b' hInv h
      cases h
      exact hInv
  | cons op rest ih =>
      intro b b' hInv h
      unfold runChecked at h
      split at h
      · cases hstep : applyOp b op with
        | none => rw [hstep] at h; exact absurd h (by simp)
        | some c =>
            rw [hstep] at h
            simp only [Option.some_bind] at h
            exact ih c b' (applyOp_inv b c op hInv (by assumption) hstep) h
      · exact absurd h (by simp)

/-! ### Concrete sample data used by witnesses and counterexamples -/

/-- A stored raw part of size 5 with no link. -/
def praw5 : PartRaw :=
  { checksum := "cs", bytes := 5, files := ["f.bin"], link := none,
    tarball := false, disk_name := some "default" }

/-- A table object holding the one part `p0` of size 5. -/
def table5 : TableMetadata :=
  { database := "db", name := "t", engine := "MergeTree", uuid := none,
    parts := [("p0", praw5)] }

/-- The part `p0` as `get_parts` would hand it back (consistent). -/
def part5 : PartMetadata := praw5.toPart "db" "t" "p0"

/-- A `remove_parts` argument naming `p0` but carrying size 3, not the
stored 5. -/
def part3 : PartMetadata :=
  { database := "db", table := "t", name := "p0", checksum := "cs", size := 3,
    files := ["f.bin"], tarball := false, link := none,
    disk_name := some "default" }

/-- A second, deduplicated (link-bearing) part of size 7. -/
def part7 : PartMetadata :=
  { database := "db", table := "t", name := "p1", checksum := "cs2", size := 7,
    files := ["g.bin"], tarball := false, link := some "ch_backup/old",
    disk_name := some "default" }

/-- A freshly constructed backup metadata object. -/
def backup0 : BackupMeta :=
  BackupMeta.init "backup1" "ch_backup/backup1" "1.0.100" "21.8" "fmt" "host"
    none false ⟨2024, 1, 1, 0, 0, 0, some 0⟩

/-- C2, as amended: starting from a fresh `BackupMetadata`, after every
successful sequence of mutator calls (`add_database`, `add_table`,
`add_part`, `remove_parts`, in any order and number) in which each
`remove_parts` call passes parts whose recorded size and link agree with
the stored entry they name (as parts read back from the metadata do),
`size` equals Σ part.size over all parts and `real_size` equals
Σ part.size over the link-free parts.  Every prefix of a successful run is
itself a successful run, so the invariant holds after every operation. -/
theorem C2_counters_invariant (nm pth ver chver fmt host : String)
    (labels : Option (List (String × String))) (schema_only : Bool)
    (start : PyDateTime) (ops : List MetaOp) (b : BackupMeta)
    (h : runChecked
      (BackupMeta.init nm pth ver chver fmt host labels schema_only start)
      ops = some b) :
    b.size = b.sumSize ∧ b.real_size = b.sumRealSize := by
  have h0 : BackupInv
      (BackupMeta.init nm pth ver chver fmt host labels schema_only start) :=
    ⟨rfl, rfl⟩
  exact runChecked_inv ops _ b h0 h

/-- Witness for C2: a concrete four-call run (register a database, attach a
table with one physical part, add a deduplicated part, remove the physical
part through its own read-back metadata) ends with balanced counters. -/
theorem C2_counters_invariant_witness :
    ∃ b, runChecked backup0
        [MetaOp.addDatabase "db", MetaOp.addTable table5,
         MetaOp.addPart part7, MetaOp.removeParts table5 [part5]] = some b ∧
      b.size = b.sumSize ∧ b.real_size = b.sumRealSize :=
  ⟨_, rfl,
    C2_counters_invariant "backup1" "ch_backup/backup1" "1.0.100" "21.8"
      "fmt" "host" none false ⟨2024, 1, 1, 0, 0, 0, some 0⟩
      [MetaOp.addDatabase "db", MetaOp.addTable table5,
       MetaOp.addPart part7, MetaOp.removeParts table5 [part5]] _ rfl⟩

/-- Counterexample to C2 as stated: the claim quantifies over mutator calls
"in any order and number" with no condition on the arguments, but
`remove_parts` subtracts the *given* part's size rather than the stored
one, so passing a part that names `p0` with size 3 (stored size 5) leaves
`size = 2` while the tree holds no parts at all. -/
theorem C2_counterexample :
    ∃ b, runOps backup0
        [MetaOp.addDatabase "db", MetaOp.addTable table5,
         MetaOp.removeParts table5 [part3]] = some b ∧
      ¬(b.size = b.sumSize ∧ b.real_size = b.sumRealSize) :=
  ⟨_, rfl, by decide⟩



/-! ### Model of `compare_schema` (util.py)

The comparator normalizes both schemas and compares the results.  The
normalization is a fixed chain of `re.sub` substitutions; each regex is
hand-compiled here into an executable matcher with the same leftmost,
greedy (and, where the pattern needs it, backtracking-equivalent)
semantics on the pattern's input language.  Strings are worked on as
`List Char`; Python's `str.lower` is modelled for the ASCII range the
schemas use. -/

/-- Python `str.lower` on an ASCII character. -/
def pyLowerChar (c : Char) : Char :=
  if 'A' ≤ c ∧ c ≤ 'Z' then Char.ofNat (c.toNat + 32) else c

/-- Python `str.lower` on an ASCII string. -/
def pyLower (l : List Char) : List Char := l.map pyLowerChar

/-- Python regex `\s` (the schemas are ASCII). -/
def isSpaceChar (c : Char) : Bool :=
  c = ' ' ∨ c = '\t' ∨ c = '\n' ∨ c = '\r' ∨ c = '\x0b' ∨ c = '\x0c'

/-- Python regex `\w` (the schemas are ASCII). -/
def isWordChar (c : Char) : Bool :=
  ('a' ≤ c ∧ c ≤ 'z') ∨ ('A' ≤ c ∧ c ≤ 'Z') ∨ ('0' ≤ c ∧ c ≤ '9') ∨ c = '_'

/-- `lpre pat l`: `l` starts with `pat`. -/
def lpre : List Char → List Char → Bool
  | [], _ => true
  | _ :: _, [] => false
  | c :: cs, d :: ds => c = d && lpre cs ds


/-- `re.sub(r"\s+", " ", ...)`: collapse every whitespace run to one
space.  The fuel starts at the input length and every step consumes at
least one character, so it never runs out. -/
def collapseWsAux : Nat → List Char → List Char
  | 0, l => l
  | _ + 1, [] => []
  | fuel + 1, c :: rest =>
      if isSpaceChar c then
        ' ' :: collapseWsAux fuel (rest.dropWhile fun c => isSpaceChar c)
      else c :: collapseWsAux fuel rest

def collapseWs (l : List Char) : List Char := collapseWsAux l.length l

/-- `re.sub(r"\( +", "(", ...)`: drop the spaces right after `(`. -/
def dropSpacesAfterParenAux : Nat → List Char → List Char
  | 0, l => l
  | _ + 1, [] => []
  | fuel + 1, c :: rest =>
      if c = '(' then
        '(' :: dropSpacesAfterParenAux fuel (rest.dropWhile fun c => c = ' ')
      else c :: dropSpacesAfterParenAux fuel rest

def dropSpacesAfterParen (l : List Char) : List Char :=
  dropSpacesAfterParenAux l.length l

/-- `re.sub(r" +\)", ")", ...)`: drop the spaces right before `)`. -/
def dropSpacesBeforeParenAux : Nat → List Char → List Char
  | 0, l => l
  | _ + 1, [] => []
  | fuel + 1, c :: rest =>
      if c = ' ' ∧ (rest.dropWhile fun c => c = ' ').headI = ')' ∧
          (rest.dropWhile fun c => c = ' ') ≠ [] then
        ')' :: dropSpacesBeforeParenAux fuel (rest.dropWhile fun c => c = ' ').tail
      else c :: dropSpacesBeforeParenAux fuel rest

def dropSpacesBeforeParen (l : List Char) : List Char :=
  dropSpacesBeforeParenAux l.length l

/-- `re.sub(r" $", "", ...)`: drop one trailing space. -/
def dropTrailingSpace (l : List Char) : List Char :=
  match l.getLast? with
  | some ' ' => l.dropLast
  | _ => l

/-- The index of the last occurrence of `c`. -/
def lastIdxOf (c : Char) : List Char → Option Nat
  | [] => none
  | d :: rest =>
      match lastIdxOf c rest with
      | some i => some (i + 1)
      | none => if d = c then some 0 else none

/-- One positional engine argument of the Distributed pattern:
`('?)(\w+)\2` — an optional quote, a word, and the matching closing quote
when one was opened.  Returns the word and what follows. -/
def parseDistArg (l : List Char) : Option (List Char × List Char) :=
  match l with
  | '\'' :: rest =>
      let w := rest.takeWhile fun c => isWordChar c
      let r := rest.dropWhile fun c => isWordChar c
      if w ≠ [] ∧ r.headI = '\'' ∧ r ≠ [] then some (w, r.tail) else none
  | _ =>
      let w := l.takeWhile fun c => isWordChar c
      if w ≠ [] then some (w, l.dropWhile fun c => isWordChar c) else none

/-- The Distributed pattern after its literal head
`ENGINE = Distributed('`: `([^']+)', ARG, ARG(, .*)?\)`.  On a match,
returns the full replacement text `ENGINE = Distributed('\1', '\3',
'\5'\6)` and the input that follows the match. -/
def matchDistTail (t : List Char) : Option (List Char × List Char) := do
  let g1 := t.takeWhile fun c => c ≠ '\''
  let r1 := t.dropWhile fun c => c ≠ '\''
  if g1 = [] then none else
  if lpre "', ".data r1 then do
    let (g3, r3) ← parseDistArg (r1.drop 3)
    if lpre ", ".data r3 then do
      let (g5, r5) ← parseDistArg (r3.drop 2)
      let (g6, rest) ←
        (if lpre ", ".data r5 then
          -- `(, .*)?\)` taken: `.*` is greedy and stops before a newline,
          -- so the final `)` is the last one on the line.
          let line := (r5.drop 2).takeWhile fun c => c ≠ '\n'
          match lastIdxOf ')' line with
          | some i =>
              some (", ".data ++ line.take i, (r5.drop 2).drop (i + 1))
          | none => none
        else if r5.headI = ')' ∧ r5 ≠ [] then some ([], r5.tail)
        else none : Option (List Char × List Char))
      some ("ENGINE = Distributed('".data ++ g1 ++ "', '".data ++ g3 ++
        "', '".data ++ g5 ++ "'".data ++ g6 ++ ")".data, rest)
    else none
  else none

/-- The literal head of the Distributed pattern. -/
def distHead : List Char := "ENGINE = Distributed('".data

/-- One scan step of
`re.sub(r"ENGINE = Distributed\('([^']+)', ('?)(\w+)\2, ('?)(\w+)\4(, .*)?\)",
r"ENGINE = Distributed('\1', '\3', '\5'\6)", ...)`: leftmost,
non-overlapping matches, scanning left to right.  The fuel starts at the
input length; a match always consumes at least the pattern head, so the
fuel never runs out. -/
def distSubAux : Nat → List Char → List Char
  | 0, l => l
  | _ + 1, [] => []
  | fuel + 1, c :: rest =>
      if lpre distHead (c :: rest) then
        match matchDistTail ((c :: rest).drop distHead.length) with
        | some (repl, rest') => repl ++ distSubAux fuel rest'
        | none => c :: distSubAux fuel rest
      else c :: distSubAux fuel rest

/-- The whole Distributed-argument quote normalization. -/
def distSub (l : List Char) : List Char := distSubAux l.length l

/-- The anchored pattern
`^attach table `?([^`\.]+)`?\.\`?([^`\.]+)\` (uuid '[^']+')?`, replaced by
`create table \1.\2`.  Applied to the already lowercased text. -/
def attachSub (l : List Char) : List Char :=
  if lpre "attach table ".data l then
    let t := l.drop "attach table ".data.length
    let t1 := if t.headI = '`' ∧ t ≠ [] then t.tail else t
    let g1 := t1.takeWhile fun c => c ≠ '`' ∧ c ≠ '.'
    let r1 := t1.dropWhile fun c => c ≠ '`' ∧ c ≠ '.'
    if g1 = [] then l else
    let r2 := if r1.headI = '`' ∧ r1 ≠ [] then r1.tail else r1
    if r2.headI = '.' ∧ r2 ≠ [] then
      let t2 := r2.tail
      let t3 := if t2.headI = '`' ∧ t2 ≠ [] then t2.tail else t2
      let g2 := t3.takeWhile fun c => c ≠ '`' ∧ c ≠ '.'
      let r3 := t3.dropWhile fun c => c ≠ '`' ∧ c ≠ '.'
      if g2 = [] then l else
      if r3.headI = '`' ∧ r3 ≠ [] then
        let r4 := r3.tail
        if r4.headI = ' ' ∧ r4 ≠ [] then
          let r5 := r4.tail
          let rest :=
            (if lpre "uuid '".data r5 then
              let u := (r5.drop 6).takeWhile fun c => c ≠ '\''
              let v := (r5.drop 6).dropWhile fun c => c ≠ '\''
              if u ≠ [] ∧ v.headI = '\'' ∧ v ≠ [] then v.tail else r5
            else r5)
          "create table ".data ++ g1 ++ ['.'] ++ g2 ++ rest
        else l
      else l
    else l
  else l

/-- `compare_schema._normalize`: quote-normalize Distributed arguments,
lowercase, rewrite the leading ATTACH TABLE framing, collapse whitespace,
trim inside parentheses and at the end. -/
def normalizeSchema (s : String) : List Char :=
  dropTrailingSpace (dropSpacesBeforeParen (dropSpacesAfterParen
    (collapseWs (attachSub (pyLower (distSub s.data))))))

/-- `compare_schema`: normalized equality of the two schema texts. -/
def compare_schema (a b : String) : Bool :=
  normalizeSchema a = normalizeSchema b





theorem ofNat_toNat_small (n : Nat) (h1 : 97 ≤ n) (h2 : n ≤ 122) :
    (Char.ofNat n).toNat = n := by
  unfold Char.ofNat
  rw [dif_pos (by omega : n < 55296 ∨ 57343 < n ∧ n < 1114112)]
  simp [Char.ofNatAux, Char.toNat, UInt32.toNat]

theorem pyLowerChar_ne_E (c : Char) : pyLowerChar c ≠ 'E' := by
  unfold pyLowerChar
  split
  · rename_i h
    intro hEq
    have h1 : 65 ≤ c.toNat := h.1
    have h2 : c.toNat ≤ 90 := h.2
    have h3 := congrArg Char.toNat hEq
    rw [ofNat_toNat_small (c.toNat + 32) (by omega) (by omega)] at h3
    have hE : ('E' : Char).toNat = 69 := rfl
    omega
  · rename_i h
    intro hEq
    subst hEq
    exact h ⟨by decide, by decide⟩

theorem pyLowerChar_idem (c : Char) :
    pyLowerChar (pyLowerChar c) = pyLowerChar c := by
  by_cases hc : 'A' ≤ c ∧ c ≤ 'Z'
  · have hstep : pyLowerChar c = Char.ofNat (c.toNat + 32) := by
      unfold pyLowerChar
      rw [if_pos hc]
    rw [hstep]
    unfold pyLowerChar
    rw [if_neg]
    intro hbad
    have h1 : 65 ≤ c.toNat := hc.1
    have h2 : c.toNat ≤ 90 := hc.2
    have hz : (Char.ofNat (c.toNat + 32)).toNat ≤ 90 := hbad.2
    rw [ofNat_toNat_small (c.toNat + 32) (by omega) (by omega)] at hz
    omega
  · have hstep : pyLowerChar c = c := by
      unfold pyLowerChar
      rw [if_neg hc]
    rw [hstep, hstep]

theorem pyLower_idem (l : List Char) : pyLower (pyLower l) = pyLower l := by
  simp only [pyLower, List.map_map]
  congr 1
  funext c
  exact pyLowerChar_idem c

/-- A lowercased text contains no capital `E`, so the case-sensitive
Distributed quote normalization never fires on it. -/
theorem distSubAux_lower (fuel : Nat) :
    ∀ l : List Char, distSubAux fuel (pyLower l) = pyLower l := by
  induction fuel with
  | zero => intro l; rfl
  | succ n ih =>
      intro l
      cases l with
      | nil => rfl
      | cons c rest =>
          show distSubAux (n + 1) (pyLowerChar c :: pyLower rest) = _
          unfold distSubAux
          rw [if_neg]
          · show pyLowerChar c :: distSubAux n (pyLower rest) = _
            rw [ih rest]
            rfl
          · have hd : distHead = 'E' :: "NGINE = Distributed('".data := rfl
            rw [hd]
            show ¬(lpre _ _ = true)
            unfold lpre
            simp [pyLowerChar_ne_E c]
            intro hbad
            exact absurd hbad.symm (pyLowerChar_ne_E c)

theorem distSub_lower (l : List Char) : distSub (pyLower l) = pyLower l :=
  distSubAux_lower (pyLower l).length l

/-- Python `str.lower` on a whole string. -/
def pyLowerStr (s : String) : String := String.mk (pyLower s.data)

theorem normalize_lower (s : String) (hs : distSub s.data = s.data) :
    normalizeSchema (pyLowerStr s) = normalizeSchema s := by
  unfold normalizeSchema
  have h1 : (pyLowerStr s).data = pyLower s.data := rfl
  rw [h1, distSub_lower, pyLower_idem, hs]

theorem C10_lower_invariant (a b : String) (ha : distSub a.data = a.data)
    (hb : distSub b.data = b.data) :
    compare_schema (pyLowerStr a) (pyLowerStr b) = compare_schema a b := by
  unfold compare_schema
  rw [normalize_lower a ha, normalize_lower b hb]

def cexA : String :=
  "CREATE TABLE db.d (x Int32) ENGINE = Distributed('clus', db, t)"

def cexB : String :=
  "CREATE TABLE db.d (x Int32) ENGINE = Distributed('clus', 'db', 't')"

theorem C10_counterexample :
    compare_schema cexA cexB = true ∧
    compare_schema (pyLowerStr cexA) (pyLowerStr cexB) = false ∧
    compare_schema cexA (pyLowerStr cexA) = false := by decide

theorem C10_witness :
    distSub "CREATE TABLE db.t (a Int32) ENGINE = MergeTree".data =
      "CREATE TABLE db.t (a Int32) ENGINE = MergeTree".data ∧
    compare_schema (pyLowerStr "CREATE TABLE db.t (a Int32) ENGINE = MergeTree")
        (pyLowerStr "create table db.t  (a Int32) ENGINE = MergeTree") =
      compare_schema "CREATE TABLE db.t (a Int32) ENGINE = MergeTree"
        "create table db.t  (a Int32) ENGINE = MergeTree" :=
  ⟨by decide, C10_lower_invariant _ _ (by decide) (by decide)⟩

theorem C9_cosmetic_equal :
    compare_schema
      "ATTACH TABLE `db`.`t` UUID '123e4567-e89b-12d3-a456-426614174000' (a Int32) ENGINE = MergeTree ORDER BY a"
      "CREATE TABLE db.t (a Int32) ENGINE = MergeTree ORDER BY a" = true ∧
    compare_schema
      "CREATE TABLE db.d (x Int32) ENGINE = Distributed('clus', db, t)"
      "CREATE TABLE db.d ( x    Int32 )  ENGINE = Distributed('clus', 'db', 't')" = true := by
  decide



/-! ### Restore orchestration (logic/table.py)

`Table` models `clickhouse.models.Table` as `_restore_tables` and
`_restore_table_objects` use it.  The ClickHouse control collaborator
(`ClickhouseCTL.restore_table`) executes a CREATE statement against the
target server; it is modelled by the statement's dependency set: creation
succeeds exactly when everything the statement references already exists
on the target. -/

/-- `pat` occurs in `l`. -/
def lcontains (pat : List Char) : List Char → Bool
  | [] => pat.isEmpty
  | c :: rest => lpre pat (c :: rest) || lcontains pat rest

/-- A table as the restore path sees it.  `deps` models the target-server
objects its CREATE statement references (the collaborator model: creation
succeeds exactly when all of them exist). -/
structure Table where
  database : String
  name : String
  engine : String
  uuid : Option String
  create_statement : String
  deps : List String
deriving Repr, DecidableEq

/-- The qualified name under which a created table is registered. -/
def fqn (t : Table) : String := t.database ++ "." ++ t.name

/-- Modelled from the spec: `is_merge_tree` of ch_backup/clickhouse/schema.py
is not among the staged sources; per the spec's table classes it recognizes
the merge-tree family of engines. -/
def is_merge_tree (engine : String) : Bool :=
  lcontains "MergeTree".data engine.data

/-- Modelled from the spec: `is_distributed` of
ch_backup/clickhouse/schema.py is not among the staged sources; it
recognizes the Distributed engine. -/
def is_distributed (engine : String) : Bool :=
  engine = "Distributed"

/-- Modelled from the spec: `is_view` of ch_backup/clickhouse/schema.py is
not among the staged sources; it recognizes the view-family engines. -/
def is_view (engine : String) : Bool :=
  engine = "View" || engine = "MaterializedView" || engine = "LiveView"

/-- The single classification pass of `_restore_tables`: the if/elif chain
appends each table to exactly one of the four class lists, keeping input
order inside each list. -/
def partitionTables : List Table → List Table × List Table × List Table × List Table
  | [] => ([], [], [], [])
  | t :: rest =>
      let (mt, dist, view, other) := partitionTables rest
      if is_merge_tree t.engine then (t :: mt, dist, view, other)
      else if is_distributed t.engine then (mt, t :: dist, view, other)
      else if is_view t.engine then (mt, dist, t :: view, other)
      else (mt, dist, view, t :: other)

/-- The submission order `_restore_tables` hands to
`_restore_table_objects`: `chain(merge_tree_tables, other_tables,
distributed_tables, view_tables)`. -/
def restoreOrder (tables : List Table) : List Table :=
  let (mt, dist, view, other) := partitionTables tables
  mt ++ other ++ dist ++ view

/-- `ClickhouseCTL.restore_table`, collaborator model: the CREATE succeeds
iff every referenced object is already present. -/
def ready (t : Table) (created : List String) : Bool :=
  t.deps.all fun d => created.contains d

/-- The submission loop of `_restore_table_objects`: pop the front table;
on success register it and clear the error list, on failure record the
error and requeue the table at the back, stopping as soon as the
accumulated errors outnumber the pending queue.  Returns the final error
list and the created-objects registry. -/
def restoreLoop (created : List String) (queue : List Table)
    (errors : List Table) : List Table × List String :=
  match queue with
  | [] => (errors, created)
  | t :: rest =>
      if ready t created then restoreLoop (created ++ [fqn t]) rest []
      else
        let errors' := errors ++ [t]
        let queue' := rest ++ [t]
        if queue'.length < errors'.length then (errors', created)
        else restoreLoop created queue' errors'
termination_by (queue.length, queue.length + 1 - errors.length)
decreasing_by
  · apply Prod.Lex.left
    simp
  · rename_i hcond
    simp only [queue', errors', not_lt, List.length_append, List.length_cons,
      List.length_nil] at hcond
    simp only [List.length_append, List.length_cons, List.length_nil]
    apply Prod.Lex.right
    omega

/-- `_restore_table_objects` around the loop: empty error list means full
success; otherwise in keep-going mode the distinct failed tables are
returned, and otherwise an error naming every failed table (sorted,
deduplicated, comma-joined) is raised. -/
def failedNames (errors : List Table) : List String :=
  ((errors.map fun t =>
    "`" ++ t.database ++ "`.`" ++ t.name ++ "`").dedup).insertionSort
    (fun a b => a ≤ b)

def restore_table_objects (created : List String) (tables : List Table)
    (keep_going : Bool) : Except String (List Table) :=
  let (errors, _) := restoreLoop created tables []
  if errors.isEmpty then .ok []
  else if keep_going then .ok errors.dedup
  else .error ("Failed to restore tables: " ++
    String.intercalate ", " (failedNames errors))


/-! ### strftime / strptime (claims C1, C8)

Model of the CPython `datetime.strftime`/`datetime.strptime` pair for the
directives a backup `time_format` can use (`%Y %m %d %H %M %S %z` and
`%%`), over the four-digit-year datetimes the program produces.
`strftime` follows glibc in copying an unsupported directive to the
output verbatim; `strptime` follows `_strptime.py` in rejecting it.  A
one-or-two-digit numeric field matches two digits when the two-digit
value is in range and one digit otherwise, in the order of the
`_strptime` regex alternations; `%Y` takes exactly four digits; `%z`
takes a sign and four digits (the `±HHMM` form `strftime` writes for a
fixed-offset zone), requiring the offset to be under 24 hours as
`timezone` does; and the parsed calendar day is validated against the
month length with the parsed (or defaulted 1900) year, exactly as the
`datetime` constructor does. -/

/-- One unit of a time format: a literal character or a directive. -/
inductive FmtTok where
  | lit (c : Char)
  | dY
  | dm
  | dd
  | dH
  | dM
  | dS
  | dz
deriving Repr, DecidableEq

/-- The directive named by the character after `%`, if supported. -/
def dirOf : Char → Option FmtTok
  | 'Y' => some .dY
  | 'm' => some .dm
  | 'd' => some .dd
  | 'H' => some .dH
  | 'M' => some .dM
  | 'S' => some .dS
  | 'z' => some .dz
  | '%' => some (.lit '%')
  | _ => none

/-- Strict tokenization: `strptime` raises `ValueError` on an unknown
directive or a trailing `%`. -/
def tokenizeFmt : List Char → Option (List FmtTok)
  | [] => some []
  | c :: rest =>
      if c = '%' then
        match rest with
        | [] => none
        | d :: rest2 => do
            let t ← dirOf d
            let ts ← tokenizeFmt rest2
            some (t :: ts)
      else (tokenizeFmt rest).map (FmtTok.lit c :: ·)

/-- Lenient tokenization: `strftime` on glibc passes an unknown directive
through verbatim. -/
def tokenizeLenient : List Char → List FmtTok
  | [] => []
  | c :: rest =>
      if c = '%' then
        match rest with
        | [] => [.lit '%']
        | d :: rest2 =>
            match dirOf d with
            | some t => t :: tokenizeLenient rest2
            | none => .lit '%' :: .lit d :: tokenizeLenient rest2
      else .lit c :: tokenizeLenient rest

/-- The ASCII digit for `n mod 10`. -/
def digitChar (n : Nat) : Char := Char.ofNat (48 + n % 10)

/-- The numeric value of an ASCII digit. -/
def digitVal (c : Char) : Nat := c.toNat - 48

/-- ASCII digit test (`\d` in the `_strptime` regexes). -/
def isDigitC (c : Char) : Bool := 48 ≤ c.toNat ∧ c.toNat ≤ 57

/-- Zero-padded two-digit rendering (all two-digit `strftime` fields). -/
def pad2 (n : Nat) : List Char := [digitChar (n / 10), digitChar n]

/-- Four-digit year rendering; CPython prints fewer digits only for years
below 1000, which `validDT` excludes. -/
def pad4 (n : Nat) : List Char :=
  [digitChar (n / 1000), digitChar (n / 100), digitChar (n / 10),
   digitChar n]

/-- Render one directive (`strftime`): `%z` prints nothing for a naive
datetime and signed `HHMM` for a fixed-offset one. -/
def renderTok (dt : PyDateTime) : FmtTok → List Char
  | .lit c => [c]
  | .dY => pad4 dt.year
  | .dm => pad2 dt.month
  | .dd => pad2 dt.day
  | .dH => pad2 dt.hour
  | .dM => pad2 dt.minute
  | .dS => pad2 dt.second
  | .dz =>
      match dt.tz with
      | none => []
      | some off =>
          (if off < 0 then '-' else '+') ::
            (pad2 (off.natAbs / 60) ++ pad2 (off.natAbs % 60))

/-- Concatenated rendering of a token list. -/
def renderToks (dt : PyDateTime) (toks : List FmtTok) : List Char :=
  toks.flatMap (renderTok dt)

/-- `datetime.strftime`. -/
def strftime (dt : PyDateTime) (fmt : String) : String :=
  String.mk (renderToks dt (tokenizeLenient fmt.data))

/-- Up to two leading ASCII digits, greedily. -/
def take2Digits : List Char → List Char × List Char
  | a :: b :: rest =>
      if isDigitC a then
        if isDigitC b then ([a, b], rest) else ([a], b :: rest)
      else ([], a :: b :: rest)
  | a :: rest => if isDigitC a then ([a], rest) else ([], a :: rest)
  | [] => ([], [])

/-- A one-or-two-digit field in `[lo, hi]`: the two-digit reading wins
when it is in range, else the one-digit reading (the order of the
`_strptime` regex alternations). -/
def parse2or1 (lo hi : Nat) (s : List Char) : Option (Nat × List Char) :=
  match take2Digits s with
  | ([a, b], rest) =>
      let v2 := digitVal a * 10 + digitVal b
      if lo ≤ v2 ∧ v2 ≤ hi then some (v2, rest)
      else
        let v1 := digitVal a
        if lo ≤ v1 ∧ v1 ≤ hi then some (v1, b :: rest) else none
  | ([a], rest) =>
      let v1 := digitVal a
      if lo ≤ v1 ∧ v1 ≤ hi then some (v1, rest) else none
  | _ => none

/-- Match one directive against the input (`_strptime`). -/
def matchTok (acc : PyDateTime) (s : List Char) :
    FmtTok → Option (PyDateTime × List Char)
  | .lit c =>
      match s with
      | d :: rest => if d = c then some (acc, rest) else none
      | [] => none
  | .dY =>
      match s with
      | a :: b :: c :: d :: rest =>
          if isDigitC a ∧ isDigitC b ∧ isDigitC c ∧ isDigitC d then
            let y := ((digitVal a * 10 + digitVal b) * 10 + digitVal c) *
              10 + digitVal d
            some ({ acc with year := y }, rest)
          else none
      | _ => none
  | .dm => (parse2or1 1 12 s).map fun (v, r) => ({ acc with month := v }, r)
  | .dd => (parse2or1 1 31 s).map fun (v, r) => ({ acc with day := v }, r)
  | .dH => (parse2or1 0 23 s).map fun (v, r) => ({ acc with hour := v }, r)
  | .dM => (parse2or1 0 59 s).map fun (v, r) => ({ acc with minute := v }, r)
  | .dS => (parse2or1 0 59 s).map fun (v, r) => ({ acc with second := v }, r)
  | .dz =>
      match s with
      | sgn :: a :: b :: c :: d :: rest =>
          if (sgn = '+' ∨ sgn = '-') ∧
              (isDigitC a ∧ isDigitC b ∧ isDigitC c ∧ isDigitC d) then
            let mins := (digitVal a * 10 + digitVal b) * 60 +
              (digitVal c * 10 + digitVal d)
            if mins < 1440 then
              let off : Int := if sgn = '-' then -(mins : Int) else (mins : Int)
              some ({ acc with tz := some off }, rest)
            else none
          else none
      | _ => none

/-- Match a token list left to right. -/
def matchToks (acc : PyDateTime) (s : List Char) :
    List FmtTok → Option (PyDateTime × List Char)
  | [] => some (acc, s)
  | t :: ts => do
      let (acc2, s2) ← matchTok acc s t
      matchToks acc2 s2 ts

/-- Gregorian leap year. -/
def isLeap (y : Nat) : Bool := y % 4 = 0 ∧ (y % 100 ≠ 0 ∨ y % 400 = 0)

/-- Days in a month (the `datetime` constructor's day validation). -/
def daysInMonth (m y : Nat) : Nat :=
  if m = 2 then (if isLeap y then 29 else 28)
  else if m = 4 ∨ m = 6 ∨ m = 9 ∨ m = 11 then 30
  else 31

/-- Unparsed fields default to 1900-01-01 00:00:00, naive. -/
def baseDT : PyDateTime := ⟨1900, 1, 1, 0, 0, 0, none⟩

/-- `datetime.strptime`: tokenize the format, match the whole input, and
let the `datetime` constructor validate the year and calendar day. -/
def strptime (s : String) (fmt : String) : Option PyDateTime := do
  let toks ← tokenizeFmt fmt.data
  let (dt, rest) ← matchToks baseDT s.data toks
  if rest = [] ∧ 1 ≤ dt.year ∧ dt.day ≤ daysInMonth dt.month dt.year then
    some dt
  else none

/-! ### Serialized backup documents (claims C1, C8) -/

/-- The `meta` sub-dict of a serialized backup document.  Every field is
optional: `none` models an absent key (for the timestamps it also covers
JSON null, which `meta.get` makes indistinguishable from absence).
A present `labels` key may hold JSON null (`some none`).  `date_fmt` is
written by `dump_json` for backward compatibility and ignored by
`load`. -/
structure MetaDoc where
  name : Option String
  path : Option String
  version : Option String
  ch_version : Option String
  hostname : Option String
  time_format : Option String
  start_time : Option String
  end_time : Option String
  bytes : Option Int
  real_bytes : Option Int
  state : Option String
  labels : Option (Option (List (String × String)))
  date_fmt : Option String
  schema_only : Option Bool
  s3_revisions : Option (List (String × Int))
deriving Repr, DecidableEq

/-- A serialized backup document: the `databases` tree, the
`access_control` list and the `meta` sub-dict, each possibly absent. -/
structure Document where
  databases : Option (List (String × DbRaw))
  access_control : Option (List String)
  meta : Option MetaDoc
deriving Repr, DecidableEq

/-- The one exception `load` lets escape: `InvalidBackupStruct`. -/
inductive ChError where
  | invalidBackupStruct
deriving Repr, DecidableEq

/-- `BackupMetadata.dump_json`, as the document it serializes: requires a
set `start_time` (`start_time_str` calls `strftime` on it unconditionally),
formats `end_time` only when set, and empties the tree and the
access-control list when `light`. -/
def BackupMeta.dump (b : BackupMeta) (light : Bool) : Option Document := do
  let st ← b.start_time
  some
    { databases := some (if light then [] else b.databases),
      access_control := some (if light then [] else b.access_control),
      meta := some
        { name := some b.name, path := some b.path,
          version := some b.version, ch_version := some b.ch_version,
          hostname := some b.hostname, time_format := some b.time_format,
          start_time := some (strftime st b.time_format),
          end_time := b.end_time.map (fun e => strftime e b.time_format),
          bytes := some b.size, real_bytes := some b.real_size,
          state := some b.state.value, labels := some b.labels,
          date_fmt := some b.time_format,
          schema_only := some b.schema_only,
          s3_revisions := some b.s3_revisions } }

/-- A required document field (`data[...]` / `meta[...]`): an absent key
raises `KeyError`, caught and re-raised as `InvalidBackupStruct`. -/
def req {α : Type} : Option α → Except ChError α
  | some a => .ok a
  | none => .error .invalidBackupStruct

/-- `BackupMetadata._load_time`: an absent or falsy (empty) value loads as
`None`; otherwise the value must `strptime` with the document's
`time_format` (a `ValueError` surfaces as `InvalidBackupStruct`), and a
naive result is stamped UTC. -/
def loadTime (v : Option String) (fmt : String) :
    Except ChError (Option PyDateTime) :=
  match v with
  | none => .ok none
  | some s =>
      if s = "" then .ok none
      else
        match strptime s fmt with
        | none => .error .invalidBackupStruct
        | some dt =>
            .ok (some (if dt.tz = none then { dt with tz := some 0 } else dt))

/-- `BackupMetadata.load`, field for field in source order; any `KeyError`
or `ValueError` (absent required key, unknown state value, unparsable
timestamp) becomes `InvalidBackupStruct`. -/
def BackupMeta.load (doc : Document) : Except ChError BackupMeta := do
  let meta ← req doc.meta
  let name ← req meta.name
  let path ← req meta.path
  let hostname ← req meta.hostname
  let time_format ← req meta.time_format
  let databases ← req doc.databases
  let access_control := doc.access_control.getD []
  let start_time ← loadTime meta.start_time time_format
  let end_time ← loadTime meta.end_time time_format
  let size ← req meta.bytes
  let real_size ← req meta.real_bytes
  let stateStr ← req meta.state
  let state ← req (BackupState.parse stateStr)
  let ch_version ← req meta.ch_version
  let labels ← req meta.labels
  let version ← req meta.version
  let schema_only := meta.schema_only.getD false
  let s3_revisions := meta.s3_revisions.getD []
  Except.ok
    { name := name, path := path, version := version,
      ch_version := ch_version, hostname := hostname,
      time_format := time_format, labels := labels, state := state,
      start_time := start_time, end_time := end_time,
      databases := databases, access_control := access_control,
      size := size, real_size := real_size, schema_only := schema_only,
      s3_revisions := s3_revisions }

/-- Datetimes the program actually serializes: four-digit year, valid
calendar fields, and a fixed offset under 24 hours (`now()` and every
loaded timestamp are timezone-aware). -/
def validDT (dt : PyDateTime) : Bool :=
  (1000 ≤ dt.year ∧ dt.year ≤ 9999 ∧ 1 ≤ dt.month ∧ dt.month ≤ 12 ∧
   1 ≤ dt.day ∧ dt.day ≤ daysInMonth dt.month dt.year ∧
   dt.hour ≤ 23 ∧ dt.minute ≤ 59 ∧ dt.second ≤ 59) &&
  match dt.tz with
  | some off => off.natAbs ≤ 1439
  | none => false

/-- A format whose rendered day re-validates: if it prints the day it also
prints the month and the year (otherwise `strptime` checks the printed
day against defaulted 1900-01). -/
def dayOk (toks : List FmtTok) : Bool :=
  if FmtTok.dd ∈ toks then
    decide (FmtTok.dm ∈ toks ∧ FmtTok.dY ∈ toks)
  else true

/-! ### Digit-rendering arithmetic -/

theorem charOfNat_toNat_of_lt (n : Nat) (h : n < 55296) :
    (Char.ofNat n).toNat = n := by
  unfold Char.ofNat
  rw [dif_pos (Or.inl h)]
  simp [Char.ofNatAux, Char.toNat, UInt32.toNat]

theorem digitChar_toNat (n : Nat) : (digitChar n).toNat = 48 + n % 10 := by
  unfold digitChar
  exact charOfNat_toNat_of_lt _ (by omega)

theorem digitVal_digitChar (n : Nat) : digitVal (digitChar n) = n % 10 := by
  unfold digitVal
  rw [digitChar_toNat]
  omega

theorem isDigitC_digitChar (n : Nat) : isDigitC (digitChar n) = true := by
  simp only [isDigitC, digitChar_toNat, decide_eq_true_eq]
  omega

theorem take2Digits_digits (a b : Char) (rest : List Char)
    (ha : isDigitC a = true) (hb : isDigitC b = true) :
    take2Digits (a :: b :: rest) = ([a, b], rest) := by
  simp [take2Digits, ha, hb]

theorem parse2or1_pad2 (lo hi n : Nat) (rest : List Char)
    (h99 : n ≤ 99) (hlo : lo ≤ n) (hhi : n ≤ hi) :
    parse2or1 lo hi (pad2 n ++ rest) = some (n, rest) := by
  have h2 : take2Digits (digitChar (n / 10) :: digitChar n :: rest) =
      ([digitChar (n / 10), digitChar n], rest) :=
    take2Digits_digits _ _ rest (isDigitC_digitChar _) (isDigitC_digitChar _)
  simp only [pad2, List.cons_append, List.nil_append]
  unfold parse2or1
  rw [h2]
  simp only [digitVal_digitChar]
  have hv : n / 10 % 10 * 10 + n % 10 = n := by omega
  rw [hv, if_pos ⟨hlo, hhi⟩]

theorem one_le_daysInMonth (m y : Nat) : 1 ≤ daysInMonth m y := by
  unfold daysInMonth
  split
  · split <;> omega
  · split <;> omega

theorem daysInMonth_le_31 (m y : Nat) : daysInMonth m y ≤ 31 := by
  unfold daysInMonth
  split
  · split <;> omega
  · split <;> omega

theorem validDT_spec (dt : PyDateTime) (hv : validDT dt = true) :
    1000 ≤ dt.year ∧ dt.year ≤ 9999 ∧ 1 ≤ dt.month ∧ dt.month ≤ 12 ∧
    1 ≤ dt.day ∧ dt.day ≤ daysInMonth dt.month dt.year ∧
    dt.hour ≤ 23 ∧ dt.minute ≤ 59 ∧ dt.second ≤ 59 ∧
    ∃ off, dt.tz = some off ∧ off.natAbs ≤ 1439 := by
  unfold validDT at hv
  rw [Bool.and_eq_true] at hv
  obtain ⟨h1, h2⟩ := hv
  simp only [decide_eq_true_eq] at h1
  obtain ⟨a1, a2, a3, a4, a5, a6, a7, a8, a9⟩ := h1
  refine ⟨a1, a2, a3, a4, a5, a6, a7, a8, a9, ?_⟩
  cases htz : dt.tz with
  | none => rw [htz] at h2; simp at h2
  | some off =>
      rw [htz] at h2
      simp only [decide_eq_true_eq] at h2
      exact ⟨off, rfl, h2⟩

/-- The field a directive sets when its rendering is matched back. -/
def applyTok (acc dt : PyDateTime) : FmtTok → PyDateTime
  | .lit _ => acc
  | .dY => { acc with year := dt.year }
  | .dm => { acc with month := dt.month }
  | .dd => { acc with day := dt.day }
  | .dH => { acc with hour := dt.hour }
  | .dM => { acc with minute := dt.minute }
  | .dS => { acc with second := dt.second }
  | .dz => { acc with tz := dt.tz }

/-- Left fold of `applyTok` over a token list. -/
def applyToks (acc dt : PyDateTime) : List FmtTok → PyDateTime
  | [] => acc
  | t :: ts => applyToks (applyTok acc dt t) dt ts

theorem matchTok_render (acc dt : PyDateTime) (t : FmtTok)
    (rest : List Char) (hv : validDT dt = true) :
    matchTok acc (renderTok dt t ++ rest) t =
      some (applyTok acc dt t, rest) := by
  obtain ⟨hy1, hy2, hm1, hm2, hd1, hd2, hh, hmin, hsec, off, hoff, habs⟩ :=
    validDT_spec dt hv
  cases t with
  | lit c => simp [renderTok, matchTok, applyTok]
  | dY =>
      simp only [renderTok, applyTok, pad4, List.cons_append,
        List.nil_append, matchTok]
      rw [if_pos ⟨isDigitC_digitChar _, isDigitC_digitChar _,
        isDigitC_digitChar _, isDigitC_digitChar _⟩]
      simp only [digitVal_digitChar]
      have hval : ((dt.year / 1000 % 10 * 10 + dt.year / 100 % 10) * 10 +
          dt.year / 10 % 10) * 10 + dt.year % 10 = dt.year := by omega
      rw [hval]
  | dm =>
      simp only [renderTok, applyTok, matchTok]
      rw [parse2or1_pad2 1 12 dt.month rest (by omega) hm1 hm2]
      rfl
  | dd =>
      have h31 : dt.day ≤ 31 := le_trans hd2 (daysInMonth_le_31 _ _)
      simp only [renderTok, applyTok, matchTok]
      rw [parse2or1_pad2 1 31 dt.day rest (by omega) hd1 h31]
      rfl
  | dH =>
      simp only [renderTok, applyTok, matchTok]
      rw [parse2or1_pad2 0 23 dt.hour rest (by omega) (Nat.zero_le _) hh]
      rfl
  | dM =>
      simp only [renderTok, applyTok, matchTok]
      rw [parse2or1_pad2 0 59 dt.minute rest (by omega) (Nat.zero_le _) hmin]
      rfl
  | dS =>
      simp only [renderTok, applyTok, matchTok]
      rw [parse2or1_pad2 0 59 dt.second rest (by omega) (Nat.zero_le _) hsec]
      rfl
  | dz =>
      simp only [renderTok, applyTok, matchTok, hoff]
      simp only [pad2, List.cons_append, List.append_assoc,
        List.nil_append]
      rw [if_pos ?hc]
      case hc =>
        constructor
        · split <;> simp
        · exact ⟨isDigitC_digitChar _, isDigitC_digitChar _,
            isDigitC_digitChar _, isDigitC_digitChar _⟩
      simp only [digitVal_digitChar]
      have hmins : (off.natAbs / 60 / 10 % 10 * 10 + off.natAbs / 60 % 10) *
          60 + (off.natAbs % 60 / 10 % 10 * 10 + off.natAbs % 60 % 10) =
          off.natAbs := by omega
      rw [hmins, if_pos (by omega)]
      by_cases hneg : off < 0
      · rw [if_pos hneg]
        have h1 : -(off.natAbs : Int) = off := by omega
        rw [if_pos (show ('-' : Char) = '-' from rfl), h1]
      · rw [if_neg hneg]
        have h1 : (off.natAbs : Int) = off := by omega
        rw [if_neg (show ¬ ('+' : Char) = '-' by decide), h1]

theorem matchToks_render (dt : PyDateTime) (hv : validDT dt = true) :
    ∀ (toks : List FmtTok) (acc : PyDateTime) (s : List Char),
      matchToks acc (renderToks dt toks ++ s) toks =
        some (applyToks acc dt toks, s)
  | [], acc, s => by simp [renderToks, matchToks, applyToks]
  | t :: ts, acc, s => by
      simp only [renderToks, List.flatMap_cons, List.append_assoc,
        matchToks, applyToks]
      rw [matchTok_render acc dt t _ hv]
      simp only [Option.bind_eq_bind, Option.some_bind]
      exact matchToks_render dt hv ts (applyTok acc dt t) s

theorem tokenizeLenient_eq (l : List Char) (toks : List FmtTok)
    (h : tokenizeFmt l = some toks) : tokenizeLenient l = toks := by
  induction l using tokenizeFmt.induct generalizing toks with
  | case1 =>
      simp only [tokenizeFmt, Option.some.injEq] at h
      simp [tokenizeLenient, ← h]
  | case2 => simp [tokenizeFmt] at h
  | case3 d rest2 ih =>
      cases hd : dirOf d with
      | none => simp [tokenizeFmt, hd] at h
      | some t =>
          cases ht : tokenizeFmt rest2 with
          | none => simp [tokenizeFmt, hd, ht] at h
          | some ts =>
              simp only [tokenizeFmt, hd, ht, if_true, reduceIte,
                Option.bind_eq_bind, Option.some_bind,
                Option.some.injEq] at h
              simp only [tokenizeLenient, reduceIte, hd]
              rw [ih ts ht]
              exact h
  | case4 d rest2 hc ih =>
      rw [tokenizeFmt.eq_def] at h
      simp only [] at h
      rw [if_neg hc] at h
      rw [tokenizeLenient.eq_def]
      simp only []
      rw [if_neg hc]
      cases ht : tokenizeFmt rest2 with
      | none => rw [ht] at h; simp at h
      | some ts =>
          rw [ht] at h
          simp only [Option.map_some, Option.map_some',
            Option.some.injEq] at h
          rw [ih ts ht]
          exact h

theorem applyToks_year (dt : PyDateTime) :
    ∀ (toks : List FmtTok) (acc : PyDateTime),
      (applyToks acc dt toks).year =
        if FmtTok.dY ∈ toks then dt.year else acc.year
  | [], acc => by simp [applyToks]
  | t :: ts, acc => by
      rw [applyToks, applyToks_year dt ts (applyTok acc dt t)]
      cases t <;> simp [applyTok, List.mem_cons]

theorem applyToks_month (dt : PyDateTime) :
    ∀ (toks : List FmtTok) (acc : PyDateTime),
      (applyToks acc dt toks).month =
        if FmtTok.dm ∈ toks then dt.month else acc.month
  | [], acc => by simp [applyToks]
  | t :: ts, acc => by
      rw [applyToks, applyToks_month dt ts (applyTok acc dt t)]
      cases t <;> simp [applyTok, List.mem_cons]

theorem applyToks_day (dt : PyDateTime) :
    ∀ (toks : List FmtTok) (acc : PyDateTime),
      (applyToks acc dt toks).day =
        if FmtTok.dd ∈ toks then dt.day else acc.day
  | [], acc => by simp [applyToks]
  | t :: ts, acc => by
      rw [applyToks, applyToks_day dt ts (applyTok acc dt t)]
      cases t <;> simp [applyTok, List.mem_cons]

/-- Rendering a datetime with a parseable format and reading it back
yields the rendered fields over the 1900-01-01 defaults. -/
theorem strptime_strftime (dt : PyDateTime) (fmt : String)
    (toks : List FmtTok) (htk : tokenizeFmt fmt.data = some toks)
    (hv : validDT dt = true) (hday : dayOk toks = true) :
    strptime (strftime dt fmt) fmt = some (applyToks baseDT dt toks) := by
  obtain ⟨hy1, hy2, hm1, hm2, hd1, hd2, hh, hmin, hsec, off, hoff, habs⟩ :=
    validDT_spec dt hv
  unfold strftime strptime
  rw [tokenizeLenient_eq fmt.data toks htk, htk]
  simp only [Option.bind_eq_bind, Option.some_bind]
  have hm := matchToks_render dt hv toks baseDT []
  rw [List.append_nil] at hm
  rw [hm]
  simp only [Option.some_bind]
  rw [if_pos ?hcond]
  case hcond =>
    refine ⟨by trivial, ?_, ?_⟩
    · rw [applyToks_year]
      split
      · omega
      · simp [baseDT]
    · rw [applyToks_day, applyToks_month, applyToks_year]
      by_cases hdd : FmtTok.dd ∈ toks
      · rw [dayOk, if_pos hdd, decide_eq_true_eq] at hday
        obtain ⟨hdm, hdY⟩ := hday
        rw [if_pos hdd, if_pos hdm, if_pos hdY]
        exact hd2
      · rw [if_neg hdd]
        have hb : baseDT.day = 1 := rfl
        rw [hb]
        exact one_le_daysInMonth _ _

theorem exc_ok_bind {α β : Type} (a : α) (f : α → Except ChError β) :
    (Except.ok a >>= f) = f a := rfl

theorem exc_error_bind {α β : Type} (e : ChError)
    (f : α → Except ChError β) :
    ((Except.error e : Except ChError α) >>= f) = Except.error e := rfl

theorem loadTime_render (fmt : String) (toks : List FmtTok)
    (htk : tokenizeFmt fmt.data = some toks) (hday : dayOk toks = true)
    (e : PyDateTime) (hve : validDT e = true) :
    ∃ r, loadTime (some (strftime e fmt)) fmt = Except.ok r := by
  unfold loadTime
  dsimp only
  by_cases hs : strftime e fmt = ""
  · rw [if_pos hs]
    exact ⟨none, rfl⟩
  · rw [if_neg hs, strptime_strftime e fmt toks htk hve hday]
    exact ⟨_, rfl⟩

theorem parse_value (st : BackupState) :
    BackupState.parse st.value = some st := by
  cases st <;> rfl

/-- **C1.**  Serializing backup metadata with `dump` and reconstructing it
with `load` preserves the aggregate `size` and `real_size` counters and
the entire database→table→part tree (hence the set of databases, tables
and parts with all per-part fields), provided the backup's `time_format`
is accepted by `strptime`, prints month and year whenever it prints the
day of month, and the stored timestamps are the timezone-aware
four-digit-year datetimes the program produces.  Without these provisos
the round trip can fail outright (see the counterexample, where `load`
rejects the very document `dump` wrote). -/
theorem C1_dump_load_roundtrip (b : BackupMeta) (st : PyDateTime)
    (toks : List FmtTok)
    (hst : b.start_time = some st)
    (htk : tokenizeFmt b.time_format.data = some toks)
    (hday : dayOk toks = true)
    (hv : validDT st = true)
    (hve : ∀ e, b.end_time = some e → validDT e = true) :
    ∃ doc b', b.dump false = some doc ∧
      BackupMeta.load doc = Except.ok b' ∧
      b'.size = b.size ∧ b'.real_size = b.real_size ∧
      b'.databases = b.databases := by
  obtain ⟨r1, h1⟩ := loadTime_render b.time_format toks htk hday st hv
  unfold BackupMeta.dump
  rw [hst]
  simp only [Option.bind_eq_bind, Option.some_bind]
  cases hend : b.end_time with
  | none =>
      simp only [Option.map_none']
      refine ⟨_, { b with start_time := r1, end_time := none },
        rfl, ?_, rfl, rfl, rfl⟩
      unfold BackupMeta.load
      simp only [req, exc_ok_bind, parse_value]
      rw [h1]
      simp only [exc_ok_bind, loadTime]
      rfl
  | some e =>
      obtain ⟨r2, h2⟩ :=
        loadTime_render b.time_format toks htk hday e (hve e hend)
      simp only [Option.map_some']
      refine ⟨_, { b with start_time := r1, end_time := r2 },
        rfl, ?_, rfl, rfl, rfl⟩
      unfold BackupMeta.load
      simp only [req, exc_ok_bind, parse_value]
      rw [h1]
      simp only [exc_ok_bind]
      rw [h2]
      simp only [exc_ok_bind]
      rfl

/-- A concrete part raw dict for the round-trip witness. -/
def wPraw1 : PartRaw :=
  { checksum := "abc", bytes := 5, files := ["a.bin"], link := none,
    tarball := false, disk_name := some "default" }

/-- A concrete table raw dict for the round-trip witness. -/
def wTRaw1 : TableRaw :=
  { engine := "MergeTree", uuid := none, parts := [("p0", wPraw1)] }

/-- A concrete database tree for the round-trip witness. -/
def wDbs1 : List (String × DbRaw) := [("db", { tables := [("t", wTRaw1)] })]

/-- The witness start time: a leap-day UTC datetime. -/
def wSt1 : PyDateTime := ⟨2024, 2, 29, 12, 30, 45, some 0⟩

/-- The witness end time, at offset +03:00. -/
def wEnd1 : PyDateTime := ⟨2024, 3, 1, 0, 5, 0, some 180⟩

/-- A fully populated backup serialized with the program's own default
`%Y-%m-%d %H:%M:%S %z` time format. -/
def wB1 : BackupMeta :=
  { name := "backup_1", path := "ch_backup/backup_1", version := "2.0.1",
    ch_version := "23.8.1", hostname := "clickhouse01",
    time_format := "%Y-%m-%d %H:%M:%S %z",
    labels := some [("env", "prod")], state := .created,
    start_time := some wSt1, end_time := some wEnd1,
    databases := wDbs1, access_control := ["u1"], size := 5,
    real_size := 5, schema_only := false, s3_revisions := [("s3", 2)] }

/-- The token list of `%Y-%m-%d %H:%M:%S %z`. -/
def wToks1 : List FmtTok :=
  [.dY, .lit '-', .dm, .lit '-', .dd, .lit ' ', .dH, .lit ':', .dM,
   .lit ':', .dS, .lit ' ', .dz]

/-- Witness: the round trip goes through on a concrete fully populated
backup with the default time format. -/
theorem C1_dump_load_roundtrip_witness :
    ∃ doc b', wB1.dump false = some doc ∧
      BackupMeta.load doc = Except.ok b' ∧
      b'.size = wB1.size ∧ b'.real_size = wB1.real_size ∧
      b'.databases = wB1.databases :=
  C1_dump_load_roundtrip wB1 wSt1 wToks1 rfl (by decide) (by decide)
    (by decide)
    (fun e he => by
      have h : wEnd1 = e := by
        have h0 : wB1.end_time = some wEnd1 := rfl
        rw [h0] at he
        exact Option.some.inj he
      rw [← h]
      decide)

/-- A backup whose `time_format` prints only month and day, with a
leap-day start time. -/
def cexB1 : BackupMeta :=
  { name := "backup_2", path := "ch_backup/backup_2", version := "2.0.1",
    ch_version := "23.8.1", hostname := "clickhouse01",
    time_format := "%m-%d", labels := none, state := .created,
    start_time := some ⟨2024, 2, 29, 0, 0, 0, some 0⟩, end_time := none,
    databases := wDbs1, access_control := [], size := 5, real_size := 5,
    schema_only := false, s3_revisions := [] }

/-- C1 counterexample: `dump` happily serializes a backup whose
`time_format` is `%m-%d` and whose start time is a leap day, but `load`
raises `InvalidBackupStruct` on the resulting document — `strptime`
re-reads `02-29` against the default year 1900, which has no February
29.  The round trip is not total, so the unconditional claim fails. -/
theorem C1_counterexample :
    ∃ doc, cexB1.dump false = some doc ∧
      BackupMeta.load doc = Except.error ChError.invalidBackupStruct :=
  ⟨_, rfl, rfl⟩

/-! ### Load-failure conditions (claim C8)

The next three predicates follow the specification's words: a required
field is missing, or the state string is outside the five-value
enumeration.  `badTime` is the condition the specification omits. -/

/-- A required field of `load` is absent: `meta` or `databases` at top
level, or any of the ten `meta[...]` keys read without a default. -/
def missingRequired (doc : Document) : Bool :=
  match doc.meta with
  | none => true
  | some m =>
      doc.databases.isNone || m.name.isNone || m.path.isNone ||
      m.hostname.isNone || m.time_format.isNone || m.bytes.isNone ||
      m.real_bytes.isNone || m.state.isNone || m.ch_version.isNone ||
      m.labels.isNone || m.version.isNone

/-- The present state string is not one of the five enumerated values. -/
def badState (doc : Document) : Bool :=
  match doc.meta with
  | none => false
  | some m =>
      match m.state with
      | none => false
      | some s => (BackupState.parse s).isNone

/-- A present, non-empty timestamp string that `strptime` rejects against
the document's `time_format`. -/
def badTimeField (fmt : Option String) : Option String → Bool
  | none => false
  | some s =>
      if s = "" then false
      else
        match fmt with
        | none => false
        | some f => (strptime s f).isNone

/-- Some timestamp of the document fails to parse. -/
def badTime (doc : Document) : Bool :=
  match doc.meta with
  | none => false
  | some m =>
      badTimeField m.time_format m.start_time ||
      badTimeField m.time_format m.end_time

theorem loadTime_error_iff (v : Option String) (fmt : String) :
    loadTime v fmt = Except.error ChError.invalidBackupStruct ↔
      badTimeField (some fmt) v = true := by
  cases v with
  | none => simp [loadTime, badTimeField]
  | some s =>
      by_cases hs : s = ""
      · simp [loadTime, badTimeField, hs]
      · cases hsp : strptime s fmt <;>
          simp [loadTime, badTimeField, hs, hsp]

theorem loadTime_ok_badTimeField (v : Option String) (fmt : String)
    (r : Option PyDateTime) (h : loadTime v fmt = Except.ok r) :
    badTimeField (some fmt) v = false := by
  cases hbt : badTimeField (some fmt) v
  · rfl
  · rw [(loadTime_error_iff v fmt).mpr hbt] at h
    simp at h

set_option maxHeartbeats 1600000 in
/-- **C8.**  `load` either returns a metadata object (whose state is by
construction one of the five enumerated values) or fails with
`InvalidBackupStruct`, and it fails exactly when a required field is
missing, the state string is outside the enumeration, **or** a present
non-empty timestamp string fails to `strptime` against the document's
`time_format` — a failure mode the missing-field/bad-state
characterization omits (see the counterexample). -/
theorem C8_load_failure (doc : Document) :
    BackupMeta.load doc = Except.error ChError.invalidBackupStruct ↔
      (missingRequired doc || badState doc || badTime doc) = true := by
  obtain ⟨dbs, ac, mo⟩ := doc
  cases mo
  · simp [BackupMeta.load, req, missingRequired, badState, badTime,
      exc_error_bind]
  rename_i m
  obtain ⟨na, pa, ve, cv, ho, tf, stt, ett, byt, rb, ss, lb, df, so, s3⟩ := m
  cases na
  · simp [BackupMeta.load, req, missingRequired, badState, badTime,
      badTimeField, exc_ok_bind, exc_error_bind]
  rename_i na
  cases pa
  · simp [BackupMeta.load, req, missingRequired, badState, badTime,
      badTimeField, exc_ok_bind, exc_error_bind]
  rename_i pa
  cases ho
  · simp [BackupMeta.load, req, missingRequired, badState, badTime,
      badTimeField, exc_ok_bind, exc_error_bind]
  rename_i ho
  cases tf
  · simp [BackupMeta.load, req, missingRequired, badState, badTime,
      badTimeField, exc_ok_bind, exc_error_bind]
  rename_i tf
  cases dbs
  · simp [BackupMeta.load, req, missingRequired, badState, badTime,
      badTimeField, exc_ok_bind, exc_error_bind]
  rename_i dbs
  cases hlt1 : loadTime stt tf
  · rename_i e
    cases e
    have hb := (loadTime_error_iff stt tf).mp hlt1
    simp [BackupMeta.load, req, missingRequired, badState, badTime,
      exc_ok_bind, exc_error_bind, hlt1, hb]
  rename_i r1
  have hb1 := loadTime_ok_badTimeField stt tf r1 hlt1
  cases hlt2 : loadTime ett tf
  · rename_i e
    cases e
    have hb := (loadTime_error_iff ett tf).mp hlt2
    simp [BackupMeta.load, req, missingRequired, badState, badTime,
      exc_ok_bind, exc_error_bind, hlt1, hlt2, hb]
  rename_i r2
  have hb2 := loadTime_ok_badTimeField ett tf r2 hlt2
  cases byt
  · simp [BackupMeta.load, req, missingRequired, badState, badTime,
      exc_ok_bind, exc_error_bind, hlt1, hlt2, hb1, hb2]
  rename_i byt
  cases rb
  · simp [BackupMeta.load, req, missingRequired, badState, badTime,
      exc_ok_bind, exc_error_bind, hlt1, hlt2, hb1, hb2]
  rename_i rb
  cases ss
  · simp [BackupMeta.load, req, missingRequired, badState, badTime,
      exc_ok_bind, exc_error_bind, hlt1, hlt2, hb1, hb2]
  rename_i ss
  cases cv
  · cases hps2 : BackupState.parse ss <;>
      simp [BackupMeta.load, req, missingRequired, badState, badTime,
        exc_ok_bind, exc_error_bind, hlt1, hlt2, hb1, hb2, hps2]
  rename_i cv
  cases lb
  · cases hps2 : BackupState.parse ss <;>
      simp [BackupMeta.load, req, missingRequired, badState, badTime,
        exc_ok_bind, exc_error_bind, hlt1, hlt2, hb1, hb2, hps2]
  rename_i lb
  cases ve
  · cases hps2 : BackupState.parse ss <;>
      simp [BackupMeta.load, req, missingRequired, badState, badTime,
        exc_ok_bind, exc_error_bind, hlt1, hlt2, hb1, hb2, hps2]
  rename_i ve
  cases hps : BackupState.parse ss
  · simp [BackupMeta.load, req, missingRequired, badState, badTime,
      exc_ok_bind, exc_error_bind, hlt1, hlt2, hb1, hb2, hps]
  rename_i stv
  simp [BackupMeta.load, req, missingRequired, badState, badTime,
    exc_ok_bind, exc_error_bind, hlt1, hlt2, hb1, hb2, hps]

/-- A document with every required field present and a valid state string,
whose start time does not parse with its own time format. -/
def cexDoc8 : Document :=
  { databases := some [],
    access_control := some [],
    meta := some
      { name := some "backup_3", path := some "ch_backup/backup_3",
        version := some "2.0.1", ch_version := some "23.8.1",
        hostname := some "clickhouse01", time_format := some "%Y",
        start_time := some "abcd", end_time := none,
        bytes := some 0, real_bytes := some 0,
        state := some "created", labels := some none,
        date_fmt := some "%Y", schema_only := some false,
        s3_revisions := some [] } }

/-- C8 counterexample: a document with no required field missing and the
state string `created` still fails with `InvalidBackupStruct`, because
its start time `abcd` does not parse as `%Y` — `load` has a third
failure mode the claim's characterization omits. -/
theorem C8_counterexample :
    BackupMeta.load cexDoc8 = Except.error ChError.invalidBackupStruct ∧
      missingRequired cexDoc8 = false ∧ badState cexDoc8 = false :=
  ⟨rfl, rfl, rfl⟩


end ChBackup

namespace ChBackup

/-- The one-pass partition equals the four order-preserving filters. -/
theorem partitionTables_eq (tables : List Table) :
    partitionTables tables =
      (tables.filter fun t => is_merge_tree t.engine,
       tables.filter fun t => !is_merge_tree t.engine &&
         is_distributed t.engine,
       tables.filter fun t => !is_merge_tree t.engine &&
         !is_distributed t.engine && is_view t.engine,
       tables.filter fun t => !is_merge_tree t.engine &&
         !is_distributed t.engine && !is_view t.engine) := by
  induction tables with
  | nil => rfl
  | cons t rest ih =>
      unfold partitionTables
      rw [ih]
      by_cases h1 : is_merge_tree t.engine
      · simp [h1, List.filter_cons]
      · by_cases h2 : is_distributed t.engine
        · simp [h1, h2, List.filter_cons]
        · by_cases h3 : is_view t.engine
          · simp [h1, h2, h3, List.filter_cons]
          · simp [h1, h2, h3, List.filter_cons]

/-- C4: schema restore submits the four engine classes in the fixed order
merge-tree, other non-distributed, distributed, view, each class keeping
input order; in particular a merge-tree table, a distributed table and a
view given in any input order are always submitted merge-tree first, then
distributed, then view. -/
theorem C4_restore_order :
    (∀ tables : List Table,
      restoreOrder tables =
        (tables.filter fun t => is_merge_tree t.engine) ++
        (tables.filter fun t => !is_merge_tree t.engine &&
          !is_distributed t.engine && !is_view t.engine) ++
        (tables.filter fun t => !is_merge_tree t.engine &&
          is_distributed t.engine) ++
        (tables.filter fun t => !is_merge_tree t.engine &&
          !is_distributed t.engine && is_view t.engine)) ∧
    (∀ (t1 t2 t3 : Table) (l : List Table),
      is_merge_tree t1.engine = true →
      is_merge_tree t2.engine = false → is_distributed t2.engine = true →
      is_merge_tree t3.engine = false → is_distributed t3.engine = false →
      is_view t3.engine = true →
      l.Perm [t1, t2, t3] → restoreOrder l = [t1, t2, t3]) := by
  have horder : ∀ tables : List Table,
      restoreOrder tables =
        (tables.filter fun t => is_merge_tree t.engine) ++
        (tables.filter fun t => !is_merge_tree t.engine &&
          !is_distributed t.engine && !is_view t.engine) ++
        (tables.filter fun t => !is_merge_tree t.engine &&
          is_distributed t.engine) ++
        (tables.filter fun t => !is_merge_tree t.engine &&
          !is_distributed t.engine && is_view t.engine) := by
    intro tables
    unfold restoreOrder
    rw [partitionTables_eq]
  refine ⟨horder, ?_⟩
  intro t1 t2 t3 l h1 h2m h2d h3m h3d h3v hperm
  rw [horder]
  have f1 : l.filter (fun t => is_merge_tree t.engine) = [t1] := by
    have hp := hperm.filter (fun t => is_merge_tree t.engine)
    have hv : List.filter (fun t => is_merge_tree t.engine) [t1, t2, t3] =
        [t1] := by
      simp [List.filter_cons, h1, h2m, h3m]
    rw [hv] at hp
    exact List.perm_singleton.mp hp
  have f2 : l.filter (fun t => !is_merge_tree t.engine &&
      is_distributed t.engine) = [t2] := by
    have hp := hperm.filter (fun t => !is_merge_tree t.engine &&
      is_distributed t.engine)
    have hv : List.filter (fun t => !is_merge_tree t.engine &&
        is_distributed t.engine) [t1, t2, t3] = [t2] := by
      simp [List.filter_cons, h1, h2m, h2d, h3m, h3d]
    rw [hv] at hp
    exact List.perm_singleton.mp hp
  have f3 : l.filter (fun t => !is_merge_tree t.engine &&
      !is_distributed t.engine && is_view t.engine) = [t3] := by
    have hp := hperm.filter (fun t => !is_merge_tree t.engine &&
      !is_distributed t.engine && is_view t.engine)
    have hv : List.filter (fun t => !is_merge_tree t.engine &&
        !is_distributed t.engine && is_view t.engine) [t1, t2, t3] = [t3] := by
      simp [List.filter_cons, h1, h2m, h2d, h3m, h3d, h3v]
    rw [hv] at hp
    exact List.perm_singleton.mp hp
  have f4 : l.filter (fun t => !is_merge_tree t.engine &&
      !is_distributed t.engine && !is_view t.engine) = [] := by
    have hp := hperm.filter (fun t => !is_merge_tree t.engine &&
      !is_distributed t.engine && !is_view t.engine)
    have hv : List.filter (fun t => !is_merge_tree t.engine &&
        !is_distributed t.engine && !is_view t.engine) [t1, t2, t3] = [] := by
      simp [List.filter_cons, h1, h2m, h2d, h3m, h3d, h3v]
    rw [hv] at hp
    exact hp.eq_nil
  rw [f1, f2, f3, f4]
  rfl


/-- C5: when the submission loop ends with a non-empty error list,
keep-going mode returns the distinct failed tables (exactly the error
list's members) without raising, and otherwise an error naming every
failed table is raised; an empty error list yields an empty returned
set. -/
theorem C5_failure_reporting (created : List String) (tables : List Table) :
    ((restoreLoop created tables []).1 = [] →
      ∀ kg, restore_table_objects created tables kg = .ok []) ∧
    ((restoreLoop created tables []).1 ≠ [] →
      (restore_table_objects created tables true =
          .ok (restoreLoop created tables []).1.dedup ∧
        ∀ t, t ∈ (restoreLoop created tables []).1.dedup ↔
          t ∈ (restoreLoop created tables []).1) ∧
      (restore_table_objects created tables false =
          .error ("Failed to restore tables: " ++ String.intercalate ", "
            (failedNames (restoreLoop created tables []).1)) ∧
        ∀ t ∈ (restoreLoop created tables []).1,
          ("`" ++ t.database ++ "`.`" ++ t.name ++ "`") ∈
            failedNames (restoreLoop created tables []).1)) := by
  cases hres : restoreLoop created tables [] with
  | mk errors created2 =>
      constructor
      · intro hempty kg
        simp only [hres] at hempty
        simp only [restore_table_objects, hres, hempty]
        rfl
      · intro hne
        simp only [hres] at hne
        refine ⟨⟨?_, ?_⟩, ?_, ?_⟩
        · simp only [restore_table_objects, hres]
          simp [List.isEmpty_iff, hne]
        · intro t
          simp [hres, List.mem_dedup]
        · simp only [restore_table_objects, hres]
          simp [List.isEmpty_iff, hne, hres]
        · intro t ht
          simp only [hres] at ht ⊢
          unfold failedNames
          have hperm := List.perm_insertionSort (fun a b : String => a ≤ b)
            ((errors.map fun t =>
              "`" ++ t.database ++ "`.`" ++ t.name ++ "`").dedup)
          rw [hperm.mem_iff, List.mem_dedup, List.mem_map]
          exact ⟨t, ht, rfl⟩


/-! ### C3: the requeue loop on a single permanently failing table

"Exactly one table permanently fails" is modelled by a dependency `d` that
no table provides and the initial target state lacks; "every other table
eventually succeeds" by the other tables being creatable from the initial
state (some order of them exists in which each finds its references
present).  `creatable` checks this by repeatedly extracting any ready
table, which succeeds exactly when some order does. -/

/-- `ready` spelled out on membership. -/
theorem ready_iff (t : Table) (cs : List String) :
    ready t cs = true ↔ ∀ x ∈ t.deps, x ∈ cs := by
  simp [ready, List.all_eq_true, List.elem_iff]

theorem ready_mono {t : Table} {cs cs' : List String}
    (h : ready t cs = true) (hsub : ∀ x ∈ cs, x ∈ cs') :
    ready t cs' = true := by
  rw [ready_iff] at h ⊢
  exact fun x hx => hsub x (h x hx)

/-- Greedy check that the whole group can be created starting from `cs`. -/
def creatableAux : Nat → List String → List Table → Bool
  | 0, _, G => G.isEmpty
  | fuel + 1, cs, G =>
      match G.find? (fun t => ready t cs) with
      | some g => creatableAux fuel (cs ++ [fqn g]) (G.erase g)
      | none => G.isEmpty

def creatable (cs : List String) (G : List Table) : Bool :=
  creatableAux G.length cs G

/-- Some order exists in which every table of the group finds its
references present when its turn comes. -/
inductive Creatable : List String → List Table → Prop where
  | nil : ∀ cs, Creatable cs []
  | step : ∀ cs G g, g ∈ G → ready g cs = true →
      Creatable (cs ++ [fqn g]) (G.erase g) → Creatable cs G

theorem creatable_sound :
    ∀ (fuel : Nat) (cs : List String) (G : List Table),
      creatableAux fuel cs G = true → Creatable cs G := by
  intro fuel
  induction fuel with
  | zero =>
      intro cs G h
      unfold creatableAux at h
      rw [List.isEmpty_iff] at h
      subst h
      exact .nil cs
  | succ n ih =>
      intro cs G h
      unfold creatableAux at h
      cases hf : G.find? (fun t => ready t cs) with
      | none =>
          rw [hf] at h
          rw [List.isEmpty_iff] at h
          subst h
          exact .nil cs
      | some g =>
          rw [hf] at h
          exact .step cs G g (List.mem_of_find?_eq_some hf)
            (by simpa using List.find?_some hf) (ih _ _ h)

theorem Creatable.mono {cs : List String} {G : List Table}
    (h : Creatable cs G) :
    ∀ cs' : List String, (∀ x ∈ cs, x ∈ cs') → Creatable cs' G := by
  induction h with
  | nil cs => exact fun cs' _ => .nil cs'
  | step cs G g hg hr hrec ih =>
      intro cs' hsub
      refine .step cs' G g hg (ready_mono hr hsub) (ih _ ?_)
      intro x hx
      rw [List.mem_append] at hx ⊢
      exact hx.imp (fun h => hsub x h) id

theorem Creatable.permG {cs : List String} {G : List Table}
    (h : Creatable cs G) :
    ∀ G' : List Table, G.Perm G' → Creatable cs G' := by
  induction h with
  | nil cs =>
      intro G' hp
      rw [hp.symm.eq_nil]
      exact .nil cs
  | step cs G g hg hr hrec ih =>
      intro G' hp
      exact .step cs G' g (hp.subset hg) hr (ih _ (hp.erase g))

theorem Creatable.exists_ready {cs : List String} {G : List Table}
    (h : Creatable cs G) (hne : G ≠ []) : ∃ g ∈ G, ready g cs = true := by
  cases h with
  | nil => exact absurd rfl hne
  | step cs G g hg hr _ => exact ⟨g, hg, hr⟩

/-- Key exchange property: whichever ready table the loop happens to
create first, the rest of the group stays creatable. -/
theorem Creatable.exchange {cs : List String} {G : List Table}
    (h : Creatable cs G) :
    ∀ g, g ∈ G → ready g cs = true →
      Creatable (cs ++ [fqn g]) (G.erase g) := by
  induction h with
  | nil cs => intro g hg _; exact absurd hg (List.not_mem_nil g)
  | step cs G h hmem hready hrec ih =>
      intro g hg hreadyg
      by_cases hEq : h = g
      · subst hEq
        exact hrec
      · have hgE : g ∈ G.erase h := (List.mem_erase_of_ne
          (fun hc => hEq hc.symm)).mpr hg
        have ih' := ih g hgE (ready_mono hreadyg (by
          intro x hx
          rw [List.mem_append]
          exact Or.inl hx))
        refine .step _ _ h ((List.mem_erase_of_ne hEq).mpr hmem)
          (ready_mono hready (by
            intro x hx
            rw [List.mem_append]
            exact Or.inl hx)) ?_
        rw [List.erase_comm]
        refine ih'.mono _ ?_
        intro x hx
        simp only [List.mem_append, List.mem_singleton] at hx ⊢
        tauto


/-- The pending tables other than the permanently failing one. -/
def goods (X : Table) (q : List Table) : List Table :=
  q.filter fun t => fqn t ≠ fqn X

/-- The state invariant of the submission loop when exactly one pending
table `X` references an object `d` nobody will ever create: `X` is still
queued, queued names are distinct, `d` stays absent, the other queued
tables are still creatable, and whenever good tables remain, a ready one
sits close enough to the front for the error budget. -/
structure LoopInv (X : Table) (d : String) (cs : List String)
    (q e : List Table) : Prop where
  hX : X ∈ q
  hnodup : (q.map fqn).Nodup
  hd_cs : d ∉ cs
  hd_q : ∀ t ∈ q, fqn t ≠ d
  hcr : Creatable cs (goods X q)
  hready : goods X q ≠ [] → ∃ q1 g q2, q = q1 ++ g :: q2 ∧
    ready g cs = true ∧ e.length + q1.length ≤ q.length
  hall : goods X q = [] → ∀ t ∈ e, t = X

theorem ready_X_false {X : Table} {d : String} {cs : List String}
    (hdX : d ∈ X.deps) (hd_cs : d ∉ cs) : ready X cs = false := by
  by_contra h
  rw [Bool.not_eq_false, ready_iff] at h
  exact hd_cs (h d hdX)

theorem loop_all_X (X : Table) (d : String) (hdX : d ∈ X.deps) :
    ∀ (cs : List String) (q e : List Table), LoopInv X d cs q e →
      (restoreLoop cs q e).1 ≠ [] ∧ ∀ t ∈ (restoreLoop cs q e).1, t = X := by
  intro cs q e
  induction cs, q, e using restoreLoop.induct with
  | case1 cs e =>
      intro hinv
      exact absurd hinv.hX (List.not_mem_nil X)
  | case2 cs e t rest htr ih =>
      intro hinv
      have hXne : t ≠ X := by
        intro hc
        subst hc
        rw [ready_X_false hdX hinv.hd_cs] at htr
        cases htr
      have hXrest : X ∈ rest := by
        rcases List.mem_cons.mp hinv.hX with h | h
        · exact absurd h.symm hXne
        · exact h
      have hfqn : fqn t ≠ fqn X := by
        have hn := hinv.hnodup
        simp only [List.map_cons, List.nodup_cons] at hn
        intro hc
        exact hn.1 (hc ▸ List.mem_map_of_mem fqn hXrest)
      have hgoods : goods X (t :: rest) = t :: goods X rest := by
        simp [goods, List.filter_cons, hfqn]
      have hcr' : Creatable (cs ++ [fqn t]) (goods X rest) := by
        have h1 := hinv.hcr.exchange t (by
          rw [hgoods]
          exact List.mem_cons_self t _) htr
        rwa [hgoods, List.erase_cons_head] at h1
      rw [restoreLoop.eq_def]
      simp only [htr, if_pos]
      apply ih
      refine ⟨hXrest, hinv.hnodup.of_cons, ?_, ?_, hcr', ?_, ?_⟩
      · intro hc
        rw [List.mem_append, List.mem_singleton] at hc
        rcases hc with hc | hc
        · exact hinv.hd_cs hc
        · exact hinv.hd_q t (List.mem_cons_self t rest) hc.symm
      · exact fun u hu => hinv.hd_q u (List.mem_cons_of_mem t hu)
      · intro hne
        obtain ⟨g, hg, hgr⟩ := hcr'.exists_ready hne
        obtain ⟨q1, q2, hsplit⟩ := List.append_of_mem
          (List.mem_of_mem_filter hg)
        refine ⟨q1, g, q2, hsplit, hgr, ?_⟩
        have hl : rest.length = q1.length + q2.length + 1 := by
          rw [hsplit]
          simp only [List.length_append, List.length_cons]
          omega
        simp only [List.length_nil]
        omega
      · intro _ u hu
        exact absurd hu (List.not_mem_nil u)
  | case3 cs e t rest htr errs2 que2 hbreak0 =>
      intro hinv
      have he2 : errs2 = e ++ [t] := rfl
      have hq2 : que2 = rest ++ [t] := rfl
      rw [he2, hq2] at hbreak0
      have hbreak : (rest ++ [t]).length < (e ++ [t]).length := hbreak0
      simp only [List.length_append, List.length_cons,
        List.length_nil] at hbreak
      have hgoodsnil : goods X (t :: rest) = [] := by
        by_contra hne
        obtain ⟨q1, g, q2, hsplit, hgr, hlen⟩ := hinv.hready hne
        cases q1 with
        | nil =>
            simp only [List.nil_append] at hsplit
            rw [List.cons.injEq] at hsplit
            rw [hsplit.1] at htr
            exact htr hgr
        | cons t0 q1 =>
            have hq : (t :: rest).length = q1.length + q2.length + 2 := by
              rw [hsplit]
              simp only [List.length_append, List.length_cons]
              omega
            simp only [List.length_cons] at hq hlen
            omega
      have hallfqn : ∀ u ∈ t :: rest, fqn u = fqn X := by
        intro u hu
        by_contra hne'
        have hmem : u ∈ goods X (t :: rest) :=
          List.mem_filter.mpr ⟨hu, by simpa using hne'⟩
        rw [hgoodsnil] at hmem
        exact absurd hmem (List.not_mem_nil u)
      have htX : t = X := by
        rcases List.mem_cons.mp hinv.hX with h | h
        · exact h.symm
        · exfalso
          have hn := hinv.hnodup
          simp only [List.map_cons, List.nodup_cons] at hn
          exact hn.1 ((hallfqn t (List.mem_cons_self t rest)) ▸
            List.mem_map_of_mem fqn h)
      rw [restoreLoop.eq_def]
      simp only [htr, if_neg, Bool.false_eq_true, if_false]
      rw [if_pos (by
        simp only [List.length_append, List.length_cons, List.length_nil]
        omega)]
      constructor
      · simp
      · intro u hu
        rw [List.mem_append, List.mem_singleton] at hu
        rcases hu with hu | hu
        · exact hinv.hall hgoodsnil u hu
        · rw [hu, htX]
  | case4 cs e t rest htr errs2 que2 hnobreak0 ih =>
      intro hinv
      have he2 : errs2 = e ++ [t] := rfl
      have hq2 : que2 = rest ++ [t] := rfl
      rw [he2, hq2] at hnobreak0 ih
      have hnobreak : ¬(rest ++ [t]).length < (e ++ [t]).length := hnobreak0
      simp only [not_lt, List.length_append, List.length_cons,
        List.length_nil] at hnobreak
      have hperm : (t :: rest).Perm (rest ++ [t]) :=
        (List.perm_append_singleton t rest).symm
      rw [restoreLoop.eq_def]
      simp only [htr, if_neg, Bool.false_eq_true, if_false]
      rw [if_neg (by
        simp only [List.length_append, List.length_cons, List.length_nil]
        omega)]
      apply ih
      by_cases hne : goods X (t :: rest) = []
      · have hallfqn : ∀ u ∈ t :: rest, fqn u = fqn X := by
          intro u hu
          by_contra hne'
          have hmem : u ∈ goods X (t :: rest) :=
            List.mem_filter.mpr ⟨hu, by simpa using hne'⟩
          rw [hne] at hmem
          exact absurd hmem (List.not_mem_nil u)
        have htX : t = X := by
          rcases List.mem_cons.mp hinv.hX with h | h
          · exact h.symm
          · exfalso
            have hn := hinv.hnodup
            simp only [List.map_cons, List.nodup_cons] at hn
            exact hn.1 ((hallfqn t (List.mem_cons_self t rest)) ▸
              List.mem_map_of_mem fqn h)
        have hrestnil : rest = [] := by
          cases rest with
          | nil => rfl
          | cons r rest' =>
              exfalso
              have hn := hinv.hnodup
              simp only [List.map_cons, List.nodup_cons] at hn
              have h1 : fqn t = fqn r := by
                rw [hallfqn t (List.mem_cons_self t _),
                  hallfqn r (List.mem_cons_of_mem t (List.mem_cons_self r _))]
              exact hn.1 (List.mem_cons.mpr (Or.inl h1))
        subst hrestnil
        have hgoods1 : goods X ([] ++ [t]) = [] := by
          simp [goods, List.filter_cons, htX]
        refine ⟨?_, ?_, hinv.hd_cs, ?_, ?_, ?_, ?_⟩
        · simp [htX]
        · simp
        · intro u hu
          simp only [List.nil_append, List.mem_singleton] at hu
          subst hu
          exact hinv.hd_q u (List.mem_cons_self u [])
        · rw [hgoods1]
          exact .nil cs
        · intro hc
          exact absurd hgoods1 hc
        · intro _ u hu
          rw [List.mem_append, List.mem_singleton] at hu
          rcases hu with hu | hu
          · exact hinv.hall hne u hu
          · rw [hu, htX]
      · obtain ⟨q1, g, q2, hsplit, hgr, hlen⟩ := hinv.hready hne
        cases q1 with
        | nil =>
            exfalso
            simp only [List.nil_append] at hsplit
            rw [List.cons.injEq] at hsplit
            rw [hsplit.1] at htr
            exact htr hgr
        | cons t0 q1 =>
            rw [List.cons_append, List.cons.injEq] at hsplit
            obtain ⟨ht0, hrest⟩ := hsplit
            refine ⟨?_, ?_, hinv.hd_cs, ?_, ?_, ?_, ?_⟩
            · rw [List.mem_append, List.mem_singleton]
              rcases List.mem_cons.mp hinv.hX with h | h
              · exact Or.inr h
              · exact Or.inl h
            · exact ((hperm.map fqn).nodup_iff).mp hinv.hnodup
            · intro u hu
              exact hinv.hd_q u (hperm.symm.subset hu)
            · exact hinv.hcr.permG _ (hperm.filter _)
            · intro _
              refine ⟨q1, g, q2 ++ [t], ?_, hgr, ?_⟩
              · rw [hrest]
                simp [List.append_assoc]
              · simp only [List.length_append, List.length_cons,
                  List.length_nil] at hlen ⊢
                omega
            · intro hc
              exfalso
              have : goods X (t :: rest) = [] := by
                have hp := hperm.filter (fun u => decide (fqn u ≠ fqn X))
                rw [show goods X (rest ++ [t]) =
                  List.filter (fun u => decide (fqn u ≠ fqn X)) (rest ++ [t])
                  from rfl] at hc
                rw [hc] at hp
                exact hp.eq_nil
              exact hne this


/-- C3: on a table list in which exactly one table `X` permanently fails
(its statement references `d`, which neither the target state nor any
listed table ever provides) while the remaining tables can all eventually
be created (some creation order succeeds), the requeue loop terminates
(`restoreLoop` is total by construction) with a non-empty error list
containing only `X` — the failed-table set is exactly `{X}`. -/
theorem C3_requeue_loop (cs0 : List String) (tables : List Table)
    (X : Table) (d : String) (hX : X ∈ tables) (hdX : d ∈ X.deps)
    (hd_cs : d ∉ cs0) (hd_tab : ∀ t ∈ tables, fqn t ≠ d)
    (hnodup : (tables.map fqn).Nodup)
    (hgood : creatable cs0 (goods X tables) = true) :
    (restoreLoop cs0 tables []).1 ≠ [] ∧
      ∀ t ∈ (restoreLoop cs0 tables []).1, t = X := by
  apply loop_all_X X d hdX
  refine ⟨hX, hnodup, hd_cs, hd_tab, creatable_sound _ _ _ hgood, ?_, ?_⟩
  · intro hne
    obtain ⟨g, hg, hgr⟩ := (creatable_sound _ _ _ hgood).exists_ready hne
    obtain ⟨q1, q2, hsplit⟩ := List.append_of_mem (List.mem_of_mem_filter hg)
    refine ⟨q1, g, q2, hsplit, hgr, ?_⟩
    have hl : tables.length = q1.length + q2.length + 1 := by
      rw [hsplit]
      simp only [List.length_append, List.length_cons]
      omega
    simp only [List.length_nil]
    omega
  · intro _ u hu
    exact absurd hu (List.not_mem_nil u)

/-- The permanently failing table: its statement references `db.gone`,
which nothing provides. -/
def wX : Table :=
  { database := "db", name := "x", engine := "MergeTree", uuid := none,
    create_statement := "CREATE TABLE db.x (a Int32)", deps := ["db.gone"] }

/-- A dependency-free table. -/
def wA : Table :=
  { database := "db", name := "a", engine := "MergeTree", uuid := none,
    create_statement := "CREATE TABLE db.a (a Int32)", deps := [] }

/-- Depends on `db.a`. -/
def wB : Table :=
  { database := "db", name := "b", engine := "Distributed", uuid := none,
    create_statement := "CREATE TABLE db.b (a Int32)", deps := ["db.a"] }

/-- Depends on `db.b`. -/
def wC : Table :=
  { database := "db", name := "c", engine := "MaterializedView",
    uuid := none, create_statement := "CREATE VIEW db.c", deps := ["db.b"] }

/-- Witness for C3: four tables queued worst-first (the failing one and the
dependency chain reversed) end with exactly the failing table reported. -/
theorem C3_requeue_loop_witness :
    (restoreLoop [] [wX, wC, wB, wA] []).1 ≠ [] ∧
      ∀ t ∈ (restoreLoop [] [wX, wC, wB, wA] []).1, t = wX :=
  C3_requeue_loop [] [wX, wC, wB, wA] wX "db.gone" (by decide) (by decide)
    (by decide) (by decide) (by decide) (by decide)

/-! ### Assoc-lookup interaction lemmas -/

theorem aget_aupd_self {α : Type} (m : List (String × α)) (k : String)
    (v : α) : aget (aupd m k v) k = some v := by
  induction m with
  | nil => simp [aupd, aget]
  | cons hd tl ih =>
      by_cases h : hd.1 = k
      · simp [aupd, aget, h]
      · simp [aupd, aget, h, ih]

theorem aget_aupd_ne {α : Type} (m : List (String × α)) (k k' : String)
    (v : α) (h : k' ≠ k) : aget (aupd m k' v) k = aget m k := by
  induction m with
  | nil => simp [aupd, aget, h]
  | cons hd tl ih =>
      by_cases h2 : hd.1 = k'
      · have h4 : hd.1 ≠ k := by
          rw [h2]
          exact h
        simp [aupd, aget, h2, h4, h]
      · simp only [aupd, if_neg h2]
        by_cases h3 : hd.1 = k
        · simp [aget, h3]
        · simp [aget, h3, ih]

theorem aget_aput_ne {α : Type} (m : List (String × α)) (k k' : String)
    (v : α) (h : k' ≠ k) : aget (aput m k' v) k = aget m k := by
  induction m with
  | nil => simp [aput, aget, h]
  | cons hd tl ih =>
      by_cases h3 : hd.1 = k
      · simp [aput, aget, h3]
      · simp only [aput, List.cons_append] at ih ⊢
        simp [aget, h3, ih]

/-! ### Restore progress journal

Modelled from the spec: `RestoreContext` (ch_backup/backup/restore_context.py)
is not among the staged sources.  Per §4.5/§6 it is a per-run, per-table
record {restored part names, failed part name → error} plus per-disk
restarted flags, persisted as a whole document by `dump_state` and read
back by `load_state`; `add_failed_part` is overwritable on retry and a
part is in at most one of restored/failed, so a successful retry clears
the failure. -/

structure TableJournal where
  restored : List String
  failed : List (String × String)
deriving Repr, DecidableEq

structure RestoreContext where
  tables : List (String × TableJournal)
  disks : List (String × Bool)
deriving Repr, DecidableEq

/-- The key a table is journalled under. -/
def jkey (db tbl : String) : String := db ++ "." ++ tbl

/-- Modelled from the spec: `add_table` registers in-progress tracking for
a table (keeping an existing record on resume). -/
def RestoreContext.add_table (ctx : RestoreContext) (db tbl : String) :
    RestoreContext :=
  match aget ctx.tables (jkey db tbl) with
  | some _ => ctx
  | none => { ctx with tables := aput ctx.tables (jkey db tbl) ⟨[], []⟩ }

/-- Modelled from the spec: `part_restored` reports whether the journal
already marks the part restored. -/
def RestoreContext.part_restored (ctx : RestoreContext)
    (db tbl p : String) : Bool :=
  match aget ctx.tables (jkey db tbl) with
  | some j => j.restored.contains p
  | none => false

/-- Modelled from the spec: `add_part` marks a part restored (idempotent,
and a retried part leaves the failed set). -/
def RestoreContext.add_part (ctx : RestoreContext) (db tbl p : String) :
    RestoreContext :=
  match aget ctx.tables (jkey db tbl) with
  | some j =>
      let j2 : TableJournal :=
        { restored :=
            if j.restored.contains p then j.restored else j.restored ++ [p],
          failed := aerase j.failed p }
      { ctx with tables := aupd ctx.tables (jkey db tbl) j2 }
  | none =>
      { ctx with tables := aput ctx.tables (jkey db tbl) ⟨[p], []⟩ }

/-- Modelled from the spec: `add_failed_part` records the part's error,
overwritable within the run. -/
def RestoreContext.add_failed_part (ctx : RestoreContext)
    (db tbl p err : String) : RestoreContext :=
  match aget ctx.tables (jkey db tbl) with
  | some j =>
      let j2 : TableJournal := { j with failed := aupd j.failed p err }
      { ctx with tables := aupd ctx.tables (jkey db tbl) j2 }
  | none =>
      { ctx with tables := aput ctx.tables (jkey db tbl) ⟨[], [(p, err)]⟩ }

/-- The persisted journal document: `{table -> {restored, failed},
disks -> restarted}`. -/
structure JournalDoc where
  tables : List (String × TableJournal)
  disks : List (String × Bool)
deriving Repr, DecidableEq

/-- Modelled from the spec: `dump_state` persists the whole journal. -/
def RestoreContext.dump_state (ctx : RestoreContext) : JournalDoc :=
  ⟨ctx.tables, ctx.disks⟩

/-- Modelled from the spec: `load_state` reloads the persisted journal. -/
def load_state (doc : JournalDoc) : RestoreContext :=
  ⟨doc.tables, doc.disks⟩

/-! ### The data phase of restore (`_restore_data`, logic/table.py)

External effects are traced as actions; `attachErr` models the
`attach_part` collaborator (the error it raises for a given part, if
any).  `s3disks` are the disks named in the backup's revision map (no
copy needed); `clouddisks` the shadow-metadata-backed disks
(disk-to-disk copy); all other disks download into the detached area. -/

inductive RAction where
  | copyPart (db tbl p : String)
  | download (db tbl p : String)
  | attachOk (db tbl p : String)
  | attachFail (db tbl p err : String)
deriving Repr, DecidableEq

/-- The part-collection loop of `_restore_data`: skip journalled parts,
route the rest by disk kind, and keep them for attachment. -/
def collectParts (ctx : RestoreContext) (db tbl : String)
    (s3disks clouddisks : List String) :
    List PartMetadata → List RAction × List PartMetadata
  | [] => ([], [])
  | p :: rest =>
      if ctx.part_restored db tbl p.name then
        collectParts ctx db tbl s3disks clouddisks rest
      else
        let dn := p.disk_name.getD "default"
        let acts :=
          if s3disks.contains dn then ([] : List RAction)
          else if clouddisks.contains dn then [.copyPart db tbl p.name]
          else [.download db tbl p.name]
        let (acts2, aps) := collectParts ctx db tbl s3disks clouddisks rest
        (acts ++ acts2, p :: aps)

/-- The attach loop of `_restore_data`: attach each collected part,
journalling success or failure individually; a failure never stops the
loop. -/
def attachLoop (attachErr : String → String → String → Option String)
    (db tbl : String) (ctx : RestoreContext) :
    List PartMetadata → RestoreContext × List RAction
  | [] => (ctx, [])
  | p :: rest =>
      match attachErr db tbl p.name with
      | none =>
          let (ctx2, acts) := attachLoop attachErr db tbl
            (ctx.add_part db tbl p.name) rest
          (ctx2, .attachOk db tbl p.name :: acts)
      | some e =>
          let (ctx2, acts) := attachLoop attachErr db tbl
            (ctx.add_failed_part db tbl p.name e) rest
          (ctx2, .attachFail db tbl p.name e :: acts)

/-- One table of `_restore_data`: register the table, collect and route
its unrestored parts, then attach them one by one. -/
def processTable (attachErr : String → String → String → Option String)
    (s3disks clouddisks : List String) (ctx : RestoreContext)
    (tm : TableMetadata) : RestoreContext × List RAction :=
  let ctx1 := ctx.add_table tm.database tm.name
  let (cacts, aps) := collectParts ctx1 tm.database tm.name s3disks
    clouddisks tm.get_parts
  let (ctx2, aacts) := attachLoop attachErr tm.database tm.name ctx1 aps
  (ctx2, cacts ++ aacts)

/-- `_restore_data` over the table sequence; the `finally` block persists
the journal after every table, so one `dump_state` snapshot is recorded
per table whatever the attach outcomes were. -/
def restoreData (attachErr : String → String → String → Option String)
    (s3disks clouddisks : List String) (ctx : RestoreContext) :
    List TableMetadata → RestoreContext × List RAction × List JournalDoc
  | [] => (ctx, [], [])
  | tm :: rest =>
      let (ctx1, acts) := processTable attachErr s3disks clouddisks ctx tm
      let (ctx2, acts2, snaps) := restoreData attachErr s3disks clouddisks
        ctx1 rest
      (ctx2, acts ++ acts2, ctx1.dump_state :: snaps)

/-- Actions touching one part of one table. -/
def touches (db tbl p : String) : RAction → Bool
  | .copyPart a b c => a = db ∧ b = tbl ∧ c = p
  | .download a b c => a = db ∧ b = tbl ∧ c = p
  | .attachOk a b c => a = db ∧ b = tbl ∧ c = p
  | .attachFail a b c _ => a = db ∧ b = tbl ∧ c = p

/-- Attach attempts (successful or failed) on one part of one table. -/
def isAttach (db tbl p : String) : RAction → Bool
  | .attachOk a b c => a = db ∧ b = tbl ∧ c = p
  | .attachFail a b c _ => a = db ∧ b = tbl ∧ c = p
  | _ => false


/-- The (database, table) a traced action belongs to. -/
def actKey : RAction → String × String
  | .copyPart a b _ => (a, b)
  | .download a b _ => (a, b)
  | .attachOk a b _ => (a, b)
  | .attachFail a b _ _ => (a, b)

theorem actKey_of_touches {db tbl p : String} {x : RAction}
    (h : touches db tbl p x = true) : actKey x = (db, tbl) := by
  cases x <;> simp only [touches, decide_eq_true_eq] at h <;>
    simp [actKey, h.1, h.2.1]

theorem actKey_of_isAttach {db tbl p : String} {x : RAction}
    (h : isAttach db tbl p x = true) : actKey x = (db, tbl) := by
  cases x with
  | copyPart a b c => simp [isAttach] at h
  | download a b c => simp [isAttach] at h
  | attachOk a b c =>
      simp only [isAttach, decide_eq_true_eq] at h
      simp [actKey, h.1, h.2.1]
  | attachFail a b c e =>
      simp only [isAttach, decide_eq_true_eq] at h
      simp [actKey, h.1, h.2.1]

/-! #### Journal monotonicity: a restored mark never disappears -/

theorem contains_append_of_contains {l : List String} {c p : String}
    (h : l.contains c = true) : (l ++ [p]).contains c = true := by
  simp only [List.elem_iff] at h ⊢
  exact List.mem_append_left _ h

theorem part_restored_add_table (ctx : RestoreContext)
    (db tbl a b c : String) (h : ctx.part_restored a b c = true) :
    (ctx.add_table db tbl).part_restored a b c = true := by
  unfold RestoreContext.add_table
  cases hk : aget ctx.tables (jkey db tbl) with
  | some j => exact h
  | none =>
      unfold RestoreContext.part_restored at h ⊢
      by_cases hkey : jkey db tbl = jkey a b
      · rw [← hkey] at h
        rw [hk] at h
        cases h
      · simp only
        rw [aget_aput_ne _ _ _ _ hkey]
        exact h

theorem part_restored_add_part (ctx : RestoreContext)
    (db tbl q a b c : String) (h : ctx.part_restored a b c = true) :
    (ctx.add_part db tbl q).part_restored a b c = true := by
  unfold RestoreContext.add_part
  cases hk : aget ctx.tables (jkey db tbl) with
  | some j =>
      unfold RestoreContext.part_restored at h ⊢
      by_cases hkey : jkey db tbl = jkey a b
      · rw [← hkey] at h ⊢
        rw [hk] at h
        simp only [aget_aupd_self]
        split
        · exact h
        · exact contains_append_of_contains h
      · simp only
        rw [aget_aupd_ne _ _ _ _ hkey]
        exact h
  | none =>
      unfold RestoreContext.part_restored at h ⊢
      by_cases hkey : jkey db tbl = jkey a b
      · rw [← hkey] at h
        rw [hk] at h
        cases h
      · simp only
        rw [aget_aput_ne _ _ _ _ hkey]
        exact h

theorem part_restored_add_failed_part (ctx : RestoreContext)
    (db tbl q e a b c : String) (h : ctx.part_restored a b c = true) :
    (ctx.add_failed_part db tbl q e).part_restored a b c = true := by
  unfold RestoreContext.add_failed_part
  cases hk : aget ctx.tables (jkey db tbl) with
  | some j =>
      unfold RestoreContext.part_restored at h ⊢
      by_cases hkey : jkey db tbl = jkey a b
      · rw [← hkey] at h ⊢
        rw [hk] at h
        simp only [aget_aupd_self]
        exact h
      · simp only
        rw [aget_aupd_ne _ _ _ _ hkey]
        exact h
  | none =>
      unfold RestoreContext.part_restored at h ⊢
      by_cases hkey : jkey db tbl = jkey a b
      · rw [← hkey] at h
        rw [hk] at h
        cases h
      · simp only
        rw [aget_aput_ne _ _ _ _ hkey]
        exact h

theorem part_restored_attachLoop
    (f : String → String → String → Option String) (db tbl : String) :
    ∀ (aps : List PartMetadata) (ctx : RestoreContext) (a b c : String),
      ctx.part_restored a b c = true →
      (attachLoop f db tbl ctx aps).1.part_restored a b c = true := by
  intro aps
  induction aps with
  | nil => intro ctx a b c h; exact h
  | cons p rest ih =>
      intro ctx a b c h
      unfold attachLoop
      cases hf : f db tbl p.name with
      | none =>
          simp only
          exact ih _ a b c (part_restored_add_part ctx db tbl p.name a b c h)
      | some e =>
          simp only
          exact ih _ a b c
            (part_restored_add_failed_part ctx db tbl p.name e a b c h)

theorem part_restored_processTable
    (f : String → String → String → Option String)
    (s3 cd : List String) (ctx : RestoreContext) (tm : TableMetadata)
    (a b c : String) (h : ctx.part_restored a b c = true) :
    (processTable f s3 cd ctx tm).1.part_restored a b c = true := by
  unfold processTable
  simp only
  exact part_restored_attachLoop f tm.database tm.name _ _ a b c
    (part_restored_add_table ctx tm.database tm.name a b c h)


/-! #### What the collection loop emits -/

theorem collectParts_keys (ctx : RestoreContext) (db tbl : String)
    (s3 cd : List String) :
    ∀ parts : List PartMetadata,
      ∀ x ∈ (collectParts ctx db tbl s3 cd parts).1, actKey x = (db, tbl) := by
  intro parts
  induction parts with
  | nil => intro x hx; exact absurd hx (List.not_mem_nil x)
  | cons p rest ih =>
      intro x hx
      unfold collectParts at hx
      split at hx
      · exact ih x hx
      · simp only [List.mem_append] at hx
        rcases hx with hx | hx
        · split at hx
          · exact absurd hx (List.not_mem_nil x)
          · split at hx <;>
              (rw [List.mem_singleton] at hx; subst hx; rfl)
        · exact ih x hx

theorem collectParts_skips (ctx : RestoreContext) (db tbl : String)
    (s3 cd : List String) (pn : String)
    (hres : ctx.part_restored db tbl pn = true) :
    ∀ parts : List PartMetadata,
      (∀ x ∈ (collectParts ctx db tbl s3 cd parts).1,
        touches db tbl pn x = false) ∧
      pn ∉ ((collectParts ctx db tbl s3 cd parts).2.map fun q => q.name) := by
  intro parts
  induction parts with
  | nil => exact ⟨fun x hx => absurd hx (List.not_mem_nil x),
      by simp [collectParts]⟩
  | cons p rest ih =>
      by_cases hskip : ctx.part_restored db tbl p.name = true
      · constructor
        · intro x hx
          unfold collectParts at hx
          rw [if_pos hskip] at hx
          exact ih.1 x hx
        · unfold collectParts
          rw [if_pos hskip]
          exact ih.2
      · have hne : p.name ≠ pn := by
          intro hc
          rw [hc] at hskip
          exact hskip hres
        constructor
        · intro x hx
          unfold collectParts at hx
          rw [if_neg hskip] at hx
          simp only [List.mem_append] at hx
          rcases hx with hx | hx
          · split at hx
            · exact absurd hx (List.not_mem_nil x)
            · split at hx <;>
                (rw [List.mem_singleton] at hx; subst hx;
                 simp [touches, hne])
          · exact ih.1 x hx
        · unfold collectParts
          rw [if_neg hskip]
          simp only [List.map_cons, List.mem_cons]
          rintro (hc | hc)
          · exact hne hc.symm
          · exact ih.2 hc

theorem collectParts_names_count (ctx : RestoreContext) (db tbl : String)
    (s3 cd : List String) (pn : String) :
    ∀ parts : List PartMetadata,
      ((collectParts ctx db tbl s3 cd parts).2.map fun q => q.name).count pn ≤
        (parts.map fun q => q.name).count pn := by
  intro parts
  induction parts with
  | nil => simp [collectParts]
  | cons p rest ih =>
      unfold collectParts
      split
      · refine le_trans ih ?_
        simp only [List.map_cons]
        exact List.count_le_count_cons pn p.name _
      · simp only [List.map_cons, List.count_cons]
        omega

/-! #### What the attach loop does -/

/-- Every collected part is attached exactly once, in order, whatever the
outcomes of the preceding attaches: the attach trace is a map over the
collected parts. -/
theorem attachLoop_trace (f : String → String → String → Option String)
    (db tbl : String) :
    ∀ (aps : List PartMetadata) (ctx : RestoreContext),
      (attachLoop f db tbl ctx aps).2 = aps.map fun p =>
        match f db tbl p.name with
        | none => RAction.attachOk db tbl p.name
        | some e => RAction.attachFail db tbl p.name e := by
  intro aps
  induction aps with
  | nil => intro ctx; rfl
  | cons p rest ih =>
      intro ctx
      unfold attachLoop
      cases hf : f db tbl p.name <;> simp [hf, ih]

/-- The error `add_failed_part` wrote for a part survives the journal. -/
def failedAt (ctx : RestoreContext) (db tbl pn : String) : Option String :=
  match aget ctx.tables (jkey db tbl) with
  | some j => aget j.failed pn
  | none => none

theorem aget_aerase_ne {α : Type} (m : List (String × α)) (k k' : String)
    (h : k' ≠ k) : aget (aerase m k') k = aget m k := by
  induction m with
  | nil => simp [aerase, aget]
  | cons hd tl ih =>
      by_cases h2 : hd.1 = k'
      · have h4 : hd.1 ≠ k := by
          rw [h2]
          exact h
        simp [aerase, aget, h2, h4, h]
      · simp only [aerase, if_neg h2]
        by_cases h3 : hd.1 = k
        · simp [aget, h3]
        · simp [aget, h3, ih]

theorem aget_aput_of_none {α : Type} (m : List (String × α)) (k : String)
    (v : α) (h : aget m k = none) : aget (aput m k v) k = some v := by
  induction m with
  | nil => simp [aput, aget]
  | cons hd tl ih =>
      by_cases h2 : hd.1 = k
      · simp [aget, h2] at h
      · simp only [aget, if_neg h2] at h
        simp only [aput, List.cons_append, aget, if_neg h2] at ih ⊢
        exact ih h

theorem failedAt_add_part_ne (ctx : RestoreContext) (db tbl q pn : String)
    (hq : q ≠ pn) :
    failedAt (ctx.add_part db tbl q) db tbl pn = failedAt ctx db tbl pn := by
  unfold RestoreContext.add_part failedAt
  cases hk : aget ctx.tables (jkey db tbl) with
  | some j =>
      simp only [aget_aupd_self]
      exact aget_aerase_ne _ _ _ hq
  | none =>
      simp only
      rw [aget_aput_of_none _ _ _ hk]
      simp [aget]

theorem failedAt_add_failed_ne (ctx : RestoreContext)
    (db tbl q e pn : String) (hq : q ≠ pn) :
    failedAt (ctx.add_failed_part db tbl q e) db tbl pn =
      failedAt ctx db tbl pn := by
  unfold RestoreContext.add_failed_part failedAt
  cases hk : aget ctx.tables (jkey db tbl) with
  | some j =>
      simp only [aget_aupd_self]
      exact aget_aupd_ne _ _ _ _ hq
  | none =>
      simp only
      rw [aget_aput_of_none _ _ _ hk]
      simp [aget, hq]


theorem failedAt_add_failed_self (ctx : RestoreContext)
    (db tbl pn e : String) :
    failedAt (ctx.add_failed_part db tbl pn e) db tbl pn = some e := by
  unfold RestoreContext.add_failed_part failedAt
  cases hk : aget ctx.tables (jkey db tbl) with
  | some j =>
      simp only [aget_aupd_self]
  | none =>
      simp only
      rw [aget_aput_of_none _ _ _ hk]
      simp [aget]

theorem attachLoop_failed_preserved
    (f : String → String → String → Option String) (db tbl pn : String) :
    ∀ (aps : List PartMetadata) (ctx : RestoreContext),
      pn ∉ (aps.map fun q => q.name) →
      failedAt (attachLoop f db tbl ctx aps).1 db tbl pn =
        failedAt ctx db tbl pn := by
  intro aps
  induction aps with
  | nil => intro ctx _; rfl
  | cons q rest ih =>
      intro ctx hnot
      simp only [List.map_cons, List.mem_cons, not_or] at hnot
      unfold attachLoop
      cases hf : f db tbl q.name with
      | none =>
          simp only
          rw [ih _ (by simpa using hnot.2)]
          exact failedAt_add_part_ne ctx db tbl q.name pn
            (fun hc => hnot.1 hc.symm)
      | some e =>
          simp only
          rw [ih _ (by simpa using hnot.2)]
          exact failedAt_add_failed_ne ctx db tbl q.name e pn
            (fun hc => hnot.1 hc.symm)

theorem attachLoop_failed_recorded
    (f : String → String → String → Option String) (db tbl : String) :
    ∀ (aps : List PartMetadata) (ctx : RestoreContext) (pn e : String),
      f db tbl pn = some e → pn ∈ (aps.map fun q => q.name) →
      (aps.map fun q => q.name).Nodup →
      failedAt (attachLoop f db tbl ctx aps).1 db tbl pn = some e := by
  intro aps
  induction aps with
  | nil =>
      intro ctx pn e _ hmem _
      simp at hmem
  | cons q rest ih =>
      intro ctx pn e hf hmem hnodup
      simp only [List.map_cons, List.nodup_cons] at hnodup
      by_cases hqp : q.name = pn
      · unfold attachLoop
        rw [hqp, hf]
        simp only
        rw [attachLoop_failed_preserved f db tbl pn rest _ (by
          rw [← hqp]
          exact hnodup.1)]
        exact failedAt_add_failed_self ctx db tbl pn e
      · have hmem2 : pn ∈ (rest.map fun q => q.name) := by
          simp only [List.map_cons, List.mem_cons] at hmem
          rcases hmem with h | h
          · exact absurd h.symm hqp
          · exact h
        unfold attachLoop
        cases hfq : f db tbl q.name <;>
          (simp only; exact ih _ pn e hf hmem2 hnodup.2)

theorem attachLoop_keys (f : String → String → String → Option String)
    (db tbl : String) (aps : List PartMetadata) (ctx : RestoreContext) :
    ∀ x ∈ (attachLoop f db tbl ctx aps).2, actKey x = (db, tbl) := by
  intro x hx
  rw [attachLoop_trace] at hx
  rw [List.mem_map] at hx
  obtain ⟨q, _, hq⟩ := hx
  subst hq
  cases f db tbl q.name <;> rfl

theorem processTable_keys (f : String → String → String → Option String)
    (s3 cd : List String) (ctx : RestoreContext) (tm : TableMetadata) :
    ∀ x ∈ (processTable f s3 cd ctx tm).2,
      actKey x = (tm.database, tm.name) := by
  intro x hx
  unfold processTable at hx
  simp only [List.mem_append] at hx
  rcases hx with hx | hx
  · exact collectParts_keys _ _ _ _ _ _ x hx
  · exact attachLoop_keys f tm.database tm.name _ _ x hx

theorem collectParts_no_attach (ctx : RestoreContext) (a b db tbl : String)
    (s3 cd : List String) (pn : String) :
    ∀ parts : List PartMetadata,
      ∀ x ∈ (collectParts ctx a b s3 cd parts).1,
        isAttach db tbl pn x = false := by
  intro parts
  induction parts with
  | nil => intro x hx; exact absurd hx (List.not_mem_nil x)
  | cons p rest ih =>
      intro x hx
      unfold collectParts at hx
      split at hx
      · exact ih x hx
      · simp only [List.mem_append] at hx
        rcases hx with hx | hx
        · split at hx
          · exact absurd hx (List.not_mem_nil x)
          · split at hx <;>
              (rw [List.mem_singleton] at hx; subst hx; rfl)
        · exact ih x hx


/-- A part the journal already marks restored is untouched by the whole
data phase: no copy, download or attach action for it. -/
theorem restoreData_skips (f : String → String → String → Option String)
    (s3 cd : List String) (db tbl pn : String) :
    ∀ (tables : List TableMetadata) (ctx : RestoreContext),
      ctx.part_restored db tbl pn = true →
      ∀ x ∈ (restoreData f s3 cd ctx tables).2.1,
        touches db tbl pn x = false := by
  intro tables
  induction tables with
  | nil => intro ctx _ x hx; exact absurd hx (List.not_mem_nil x)
  | cons tm rest ih =>
      intro ctx hres x hx
      unfold restoreData at hx
      simp only [List.mem_append] at hx
      rcases hx with hx | hx
      · by_cases hpair : tm.database = db ∧ tm.name = tbl
        · obtain ⟨h1, h2⟩ := hpair
          subst h1
          subst h2
          unfold processTable at hx
          simp only [List.mem_append] at hx
          have hres1 : (ctx.add_table tm.database tm.name).part_restored
              tm.database tm.name pn = true :=
            part_restored_add_table ctx tm.database tm.name
              tm.database tm.name pn hres
          rcases hx with hx | hx
          · exact (collectParts_skips _ _ _ _ _ _ hres1 _).1 x hx
          · rw [attachLoop_trace] at hx
            rw [List.mem_map] at hx
            obtain ⟨q, hq, hqx⟩ := hx
            have hqname : q.name ≠ pn := by
              intro hc
              apply (collectParts_skips _ _ _ _ _ _ hres1 tm.get_parts).2
              rw [← hc]
              exact List.mem_map_of_mem _ hq
            subst hqx
            cases f tm.database tm.name q.name <;>
              simp [touches, hqname]
        · have hkey := processTable_keys f s3 cd ctx tm x hx
          by_contra hc
          rw [Bool.not_eq_false] at hc
          have := actKey_of_touches hc
          rw [hkey] at this
          rw [Prod.mk.injEq] at this
          exact hpair ⟨this.1, this.2⟩
      · exact ih _ (part_restored_processTable f s3 cd ctx tm db tbl pn hres)
          x hx

/-- Tables journalled under other names contribute no attach action for
this part. -/
theorem restoreData_attach_zero
    (f : String → String → String → Option String) (s3 cd : List String)
    (db tbl pn : String) :
    ∀ (tables : List TableMetadata) (ctx : RestoreContext),
      (∀ tm ∈ tables, ¬(tm.database = db ∧ tm.name = tbl)) →
      ((restoreData f s3 cd ctx tables).2.1.countP
        (isAttach db tbl pn)) = 0 := by
  intro tables
  induction tables with
  | nil => intro ctx _; rfl
  | cons tm rest ih =>
      intro ctx hno
      unfold restoreData
      simp only [List.countP_append]
      have h1 : (processTable f s3 cd ctx tm).2.countP
          (isAttach db tbl pn) = 0 := by
        rw [List.countP_eq_zero]
        intro x hx
        have hkey := processTable_keys f s3 cd ctx tm x hx
        intro hc
        have := actKey_of_isAttach hc
        rw [hkey, Prod.mk.injEq] at this
        exact hno tm (List.mem_cons_self tm rest) ⟨this.1, this.2⟩
      rw [h1, ih _ (fun u hu => hno u (List.mem_cons_of_mem tm hu))]

/-- Within one table whose part names are distinct, at most one attach
attempt is made per part. -/
theorem processTable_attach_le_one
    (f : String → String → String → Option String) (s3 cd : List String)
    (ctx : RestoreContext) (tm : TableMetadata) (pn : String)
    (hnodup : (tm.parts.map fun pr => pr.1).Nodup) :
    (processTable f s3 cd ctx tm).2.countP
      (isAttach tm.database tm.name pn) ≤ 1 := by
  unfold processTable
  simp only [List.countP_append]
  have h1 : (collectParts (ctx.add_table tm.database tm.name) tm.database
      tm.name s3 cd tm.get_parts).1.countP
        (isAttach tm.database tm.name pn) = 0 := by
    rw [List.countP_eq_zero]
    intro x hx hc
    rw [collectParts_no_attach _ _ _ _ _ _ _ _ _ x hx] at hc
    cases hc
  rw [h1]
  rw [attachLoop_trace]
  have hnames : (tm.get_parts.map fun q => q.name) =
      tm.parts.map fun pr => pr.1 := by
    unfold TableMetadata.get_parts
    rw [List.map_map]
    rfl
  have hcount := collectParts_names_count (ctx.add_table tm.database tm.name)
    tm.database tm.name s3 cd pn tm.get_parts
  rw [hnames] at hcount
  have hone : (tm.parts.map fun pr => pr.1).count pn ≤ 1 :=
    List.nodup_iff_count_le_one.mp hnodup pn
  have hmapcount : ((collectParts (ctx.add_table tm.database tm.name)
      tm.database tm.name s3 cd tm.get_parts).2.map fun p =>
        match f tm.database tm.name p.name with
        | none => RAction.attachOk tm.database tm.name p.name
        | some e => RAction.attachFail tm.database tm.name p.name e).countP
      (isAttach tm.database tm.name pn) =
      ((collectParts (ctx.add_table tm.database tm.name) tm.database tm.name
        s3 cd tm.get_parts).2.map fun q => q.name).count pn := by
    rw [List.countP_map, List.count_eq_countP, List.countP_map]
    apply List.countP_congr
    intro q _
    simp only [Function.comp_apply]
    cases f tm.database tm.name q.name <;>
      simp [isAttach]
  omega

/-- All attach attempts for one part across the whole run, when table
names are distinct and each table's part names are distinct: at most
one. -/
theorem restoreData_attach_le_one
    (f : String → String → String → Option String) (s3 cd : List String)
    (db tbl pn : String) :
    ∀ (tables : List TableMetadata) (ctx : RestoreContext),
      (tables.map fun tm => (tm.database, tm.name)).Nodup →
      (∀ tm ∈ tables, (tm.parts.map fun pr => pr.1).Nodup) →
      (restoreData f s3 cd ctx tables).2.1.countP (isAttach db tbl pn) ≤
        1 := by
  intro tables
  induction tables with
  | nil => intro ctx _ _; simp [restoreData]
  | cons tm rest ih =>
      intro ctx hnodup hparts
      simp only [List.map_cons, List.nodup_cons] at hnodup
      unfold restoreData
      simp only [List.countP_append]
      by_cases hpair : tm.database = db ∧ tm.name = tbl
      · obtain ⟨h1, h2⟩ := hpair
        have hz : ((restoreData f s3 cd
            (processTable f s3 cd ctx tm).1 rest).2.1.countP
              (isAttach db tbl pn)) = 0 := by
          apply restoreData_attach_zero
          intro u hu hc
          apply hnodup.1
          rw [List.mem_map]
          refine ⟨u, hu, ?_⟩
          rw [hc.1, hc.2, h1, h2]
        have hle := processTable_attach_le_one f s3 cd ctx tm pn
          (hparts tm (List.mem_cons_self tm rest))
        rw [h1, h2] at hle
        rw [hz]
        omega
      · have hz : (processTable f s3 cd ctx tm).2.countP
            (isAttach db tbl pn) = 0 := by
          rw [List.countP_eq_zero]
          intro x hx hc
          have hkey := processTable_keys f s3 cd ctx tm x hx
          have := actKey_of_isAttach hc
          rw [hkey, Prod.mk.injEq] at this
          exact hpair ⟨this.1, this.2⟩
        have hih := ih ((processTable f s3 cd ctx tm).1) hnodup.2
          (fun u hu => hparts u (List.mem_cons_of_mem tm hu))
        rw [hz]
        simpa using hih


/-- The journal is persisted once per processed table (by the `finally`
of `_restore_data`), whatever the attach outcomes were. -/
theorem restoreData_snaps (f : String → String → String → Option String)
    (s3 cd : List String) :
    ∀ (tables : List TableMetadata) (ctx : RestoreContext),
      (restoreData f s3 cd ctx tables).2.2.length = tables.length := by
  intro tables
  induction tables with
  | nil => intro ctx; rfl
  | cons tm rest ih =>
      intro ctx
      unfold restoreData
      simp only [List.length_cons]
      rw [ih]

/-- C6: a part the journal marks restored stays skipped.  `part_restored`
survives a dump/load round trip; a part restored at run entry gets no
copy, download or attach action anywhere in the run; and with distinct
table names and per-table distinct part names, no part ever sees a second
attach attempt in one run. -/
theorem C6_restored_part_never_reattached :
    (∀ (ctx : RestoreContext) (db tbl p : String),
      (load_state ctx.dump_state).part_restored db tbl p =
        ctx.part_restored db tbl p) ∧
    (∀ (f : String → String → String → Option String)
      (s3 cd : List String) (tables : List TableMetadata)
      (ctx : RestoreContext) (db tbl pn : String),
      ctx.part_restored db tbl pn = true →
      ∀ x ∈ (restoreData f s3 cd ctx tables).2.1,
        touches db tbl pn x = false) ∧
    (∀ (f : String → String → String → Option String)
      (s3 cd : List String) (tables : List TableMetadata)
      (ctx : RestoreContext) (db tbl pn : String),
      (tables.map fun tm => (tm.database, tm.name)).Nodup →
      (∀ tm ∈ tables, (tm.parts.map fun pr => pr.1).Nodup) →
      (restoreData f s3 cd ctx tables).2.1.countP (isAttach db tbl pn) ≤
        1) :=
  ⟨fun _ _ _ _ => rfl,
   fun f s3 cd tables ctx db tbl pn h =>
     restoreData_skips f s3 cd db tbl pn tables ctx h,
   fun f s3 cd tables ctx db tbl pn h1 h2 =>
     restoreData_attach_le_one f s3 cd db tbl pn tables ctx h1 h2⟩

/-- C7: an attach failure is contained.  The attach trace is exactly one
attempt per collected part in order — an earlier failure never suppresses
a sibling's attempt or ends the run; a failed part's error is recorded in
the journal under that part; and the journal is persisted after every
table, whatever the outcomes. -/
theorem C7_attach_failure_contained :
    (∀ (f : String → String → String → Option String) (db tbl : String)
      (ctx : RestoreContext) (aps : List PartMetadata),
      (attachLoop f db tbl ctx aps).2 = aps.map fun p =>
        match f db tbl p.name with
        | none => RAction.attachOk db tbl p.name
        | some e => RAction.attachFail db tbl p.name e) ∧
    (∀ (f : String → String → String → Option String) (db tbl : String)
      (ctx : RestoreContext) (aps : List PartMetadata) (pn e : String),
      f db tbl pn = some e → pn ∈ (aps.map fun q => q.name) →
      (aps.map fun q => q.name).Nodup →
      failedAt (attachLoop f db tbl ctx aps).1 db tbl pn = some e) ∧
    (∀ (f : String → String → String → Option String)
      (s3 cd : List String) (ctx : RestoreContext)
      (tables : List TableMetadata),
      (restoreData f s3 cd ctx tables).2.2.length = tables.length) :=
  ⟨fun f db tbl ctx aps => attachLoop_trace f db tbl aps ctx,
   fun f db tbl ctx aps pn e h1 h2 h3 =>
     attachLoop_failed_recorded f db tbl aps ctx pn e h1 h2 h3,
   fun f s3 cd ctx tables => restoreData_snaps f s3 cd tables ctx⟩

end ChBackup
